import Mathlib

/-!
# Verification of the bigcache byte ring queue and shard logic

This file is a shallow embedding of the core of the `bigcache` repository
(files `entry.go`, `bytes_queue.go`, `shard.go`) into Lean 4, together with
proofs about the embedded definitions.

Byte buffers (`[]byte`) are modelled as `List Nat`; machine integers are
modelled as `Nat` (with explicit `% 2^w` truncation where the Go code
truncates, e.g. `uint32(ce.Size())` in `qref.write`, which is reproduced by
the little-endian serialiser `leBytes` keeping only the low bytes).
Go's `binary.LittleEndian.PutUintN`/`UintN` are modelled by `writeBytes`
with `leBytes`, and `readLE`.  Reads of single bytes use `byteAt`
(out-of-range reads default to `0`; the Go code would panic there, and all
verified code paths are shown to stay in range — the one claim that is
about panicking behaviour, `qref.valid`, is modelled separately by the
partiality-aware `qrefValidGo`).
-/

namespace BigCache

/-- A byte of a buffer (default `0` out of range).  Models `buf[i]` for
in-range `i`. -/
def byteAt (buf : List Nat) (i : Nat) : Nat :=
  buf[i]?.getD 0

/-- Little-endian serialisation of `v` into `n` bytes; keeps `v % 256^n`,
exactly like Go's `binary.LittleEndian.PutUintN` after integer conversion. -/
def leBytes : Nat → Nat → List Nat
  | 0, _ => []
  | n + 1, v => v % 256 :: leBytes n (v / 256)

/-- Little-endian read of `n` bytes starting at `a`;
models `binary.LittleEndian.UintN(buf[a:])`. -/
def readLE (buf : List Nat) (a : Nat) : Nat → Nat
  | 0 => 0
  | n + 1 => byteAt buf a + 256 * readLE buf (a + 1) n

/-- Writes the byte string `src` into `buf` starting at offset `a`,
truncating at the end of `buf` (Go `copy` semantics; the length of the
buffer never changes). -/
def writeBytes : List Nat → Nat → List Nat → List Nat
  | buf, _, [] => buf
  | buf, a, b :: bs => writeBytes (buf.set a b) (a + 1) bs

/-- The slice `buf[a : a+n]` (clamped at the end, Go slices panic instead). -/
def readBytes (buf : List Nat) (a n : Nat) : List Nat :=
  (buf.drop a).take n

theorem length_leBytes (n v : Nat) : (leBytes n v).length = n := by
  induction n generalizing v with
  | zero => rfl
  | succ n ih => simp [leBytes, ih]

theorem byteAt_set_self (buf : List Nat) (i v : Nat) (h : i < buf.length) :
    byteAt (buf.set i v) i = v := by
  simp [byteAt, List.getElem?_set, h]

theorem set_of_length_le (buf : List Nat) (i v : Nat) (h : buf.length ≤ i) :
    buf.set i v = buf :=
  List.set_eq_of_length_le h

theorem byteAt_set_ne (buf : List Nat) (i j v : Nat) (h : i ≠ j) :
    byteAt (buf.set i v) j = byteAt buf j := by
  simp [byteAt, List.getElem?_set, h]

theorem length_writeBytes (src : List Nat) (buf : List Nat) (a : Nat) :
    (writeBytes buf a src).length = buf.length := by
  induction src generalizing buf a with
  | nil => rfl
  | cons b bs ih => simp [writeBytes, ih, List.length_set]

/-- Full pointwise characterisation of `writeBytes`. -/
theorem byteAt_writeBytes (src : List Nat) (buf : List Nat) (a i : Nat) :
    byteAt (writeBytes buf a src) i =
      if a ≤ i ∧ i < a + src.length ∧ i < buf.length then byteAt src (i - a)
      else byteAt buf i := by
  induction src generalizing buf a with
  | nil =>
    simp only [writeBytes, List.length_nil, Nat.add_zero]
    rw [if_neg (by omega)]
  | cons b bs ih =>
    simp only [writeBytes, List.length_cons]
    rw [ih]
    simp only [List.length_set]
    rcases Nat.lt_or_ge i buf.length with hlen | hlen
    · rcases Nat.lt_trichotomy i a with hia | hia | hia
      · rw [if_neg (by omega), if_neg (by omega), byteAt_set_ne _ _ _ _ (by omega)]
      · subst hia
        rw [if_neg (by omega), if_pos (by omega), byteAt_set_self _ _ _ hlen]
        simp [byteAt]
      · by_cases hub : i < a + (bs.length + 1)
        · rw [if_pos (by omega), if_pos (by omega)]
          have hsub : i - a = (i - (a + 1)) + 1 := by omega
          rw [hsub]
          simp [byteAt]
        · rw [if_neg (by omega), if_neg (by omega),
            byteAt_set_ne _ _ _ _ (by omega)]
    · rw [if_neg (by omega), if_neg (by omega)]
      by_cases hia : a = i
      · subst hia
        rw [set_of_length_le _ _ _ (by omega)]
      · rw [byteAt_set_ne _ _ _ _ hia]

theorem byteAt_eq_zero_of_length_le (buf : List Nat) (i : Nat)
    (h : buf.length ≤ i) : byteAt buf i = 0 := by
  simp [byteAt, List.getElem?_eq_none h]

theorem length_readBytes (buf : List Nat) (a n : Nat) :
    (readBytes buf a n).length = min n (buf.length - a) := by
  simp [readBytes]

theorem byteAt_readBytes (buf : List Nat) (a n i : Nat) (h : i < n) :
    byteAt (readBytes buf a n) i = byteAt buf (a + i) := by
  simp only [readBytes, byteAt]
  rw [List.getElem?_take, if_pos h, List.getElem?_drop]

/-- Two byte strings agree when they have the same length and the same
bytes. -/
theorem eq_of_byteAt_eq (l1 l2 : List Nat) (hlen : l1.length = l2.length)
    (h : ∀ i < l1.length, byteAt l1 i = byteAt l2 i) : l1 = l2 := by
  induction l1 generalizing l2 with
  | nil => cases l2 <;> simp_all
  | cons a l1 ih =>
    cases l2 with
    | nil => simp_all
    | cons b l2 =>
      have h0 := h 0 (by simp)
      simp only [byteAt, List.getElem?_cons_zero, Option.getD_some] at h0
      subst h0
      refine congrArg _ (ih l2 (by simpa using hlen) fun i hi => ?_)
      have := h (i + 1) (by simp only [List.length_cons]; omega)
      simpa [byteAt] using this

theorem byteAt_append_left (l1 l2 : List Nat) (i : Nat) (h : i < l1.length) :
    byteAt (l1 ++ l2) i = byteAt l1 i := by
  simp [byteAt, List.getElem?_append_left h]

theorem byteAt_append_right (l1 l2 : List Nat) (i : Nat) (h : l1.length ≤ i) :
    byteAt (l1 ++ l2) i = byteAt l2 (i - l1.length) := by
  simp [byteAt, List.getElem?_append_right h]

theorem byteAt_cons_succ (b : Nat) (l : List Nat) (i : Nat) :
    byteAt (b :: l) (i + 1) = byteAt l i := by
  simp [byteAt]

theorem readLE_congr (buf1 buf2 : List Nat) (a1 a2 : Nat) (n : Nat)
    (h : ∀ i < n, byteAt buf1 (a1 + i) = byteAt buf2 (a2 + i)) :
    readLE buf1 a1 n = readLE buf2 a2 n := by
  induction n generalizing a1 a2 with
  | zero => rfl
  | succ n ih =>
    have h0 := h 0 (by omega)
    simp only [Nat.add_zero] at h0
    simp only [readLE, h0]
    rw [ih (a1 + 1) (a2 + 1) fun i hi => by
      have := h (1 + i) (by omega)
      rw [Nat.add_comm 1 i] at this
      simpa [Nat.add_assoc, Nat.add_comm, Nat.add_left_comm] using this]

theorem readLE_leBytes (n v : Nat) : readLE (leBytes n v) 0 n = v % 256 ^ n := by
  induction n generalizing v with
  | zero => simp [readLE, Nat.mod_one]
  | succ n ih =>
    have htail : readLE (leBytes (n + 1) v) 1 n = readLE (leBytes n (v / 256)) 0 n := by
      refine readLE_congr _ _ _ _ _ fun i hi => ?_
      show byteAt (v % 256 :: leBytes n (v / 256)) (1 + i) = _
      rw [Nat.add_comm 1 i, byteAt_cons_succ]
      simp
    show byteAt (v % 256 :: leBytes n (v / 256)) 0 + 256 * readLE (leBytes (n + 1) v) (0 + 1) n = _
    rw [Nat.zero_add, htail, ih]
    have : (256 : Nat) ^ (n + 1) = 256 * 256 ^ n := by ring
    rw [this, Nat.mod_mul]
    simp [byteAt]

/-- Sub-slice of a slice. -/
theorem readBytes_readBytes (buf : List Nat) (a sz o n : Nat) (h : o + n ≤ sz) :
    readBytes (readBytes buf a sz) o n = readBytes buf (a + o) n := by
  refine eq_of_byteAt_eq _ _ ?_ fun i hi => ?_
  · simp only [length_readBytes]
    omega
  · rw [length_readBytes] at hi
    have hin : i < n := by omega
    rw [byteAt_readBytes _ _ _ _ hin, byteAt_readBytes _ _ _ _ (by omega),
      byteAt_readBytes _ _ _ _ hin, Nat.add_assoc]

theorem readBytes_writeBytes (buf : List Nat) (a : Nat) (src : List Nat)
    (h : a + src.length ≤ buf.length) :
    readBytes (writeBytes buf a src) a src.length = src := by
  refine eq_of_byteAt_eq _ _ ?_ fun i hi => ?_
  · rw [length_readBytes, length_writeBytes]
    omega
  · rw [length_readBytes, length_writeBytes] at hi
    rw [byteAt_readBytes _ _ _ _ (by omega), byteAt_writeBytes,
      if_pos (by constructor <;> omega)]
    congr 1
    omega

theorem byteAt_writeBytes_of_lt (src buf : List Nat) (a i : Nat) (h : i < a) :
    byteAt (writeBytes buf a src) i = byteAt buf i := by
  rw [byteAt_writeBytes, if_neg (by omega)]

theorem byteAt_writeBytes_of_ge (src buf : List Nat) (a i : Nat)
    (h : a + src.length ≤ i) :
    byteAt (writeBytes buf a src) i = byteAt buf i := by
  rw [byteAt_writeBytes, if_neg (by omega)]

/-! ## Entry codec (`entry.go`)

The serialised entry layout is, at offset `r` (all little-endian):
size `u32` at `r+0`, timestamp `u64` at `r+4`, hash `u64` at `r+12`,
key length `u16` at `r+20`, key at `r+22`, payload after the key.
The named source constants are `sizeLen = 4`, `sizeTS = 8`, `sizeHash = 8`,
`sizeKeyLen = 2`, `offTS = 4`, `offHash = 12`, `offKeyLen = 20`,
`offKeyStr = 22`; the numerals below are those constants. -/

/-- `CacheEntry` of `entry.go`: timestamp, hash, key bytes, payload bytes. -/
structure CacheEntry where
  ts : Nat
  hash : Nat
  key : List Nat
  data : List Nat
deriving DecidableEq, Repr

/-- `(*CacheEntry).Size()`: `offKeyStr + len(Key) + len(Data)`.
(`(*CacheEntry).Size(nil)`, the header size, is the constant 22.) -/
def CacheEntry.size (ce : CacheEntry) : Nat :=
  22 + ce.key.length + ce.data.length

/-- `qref.size`: `binary.LittleEndian.Uint32(buf[r+offLen:])`. -/
def qrefSize (buf : List Nat) (r : Nat) : Nat :=
  readLE buf (r + 0) 4

/-- `qref.ts`: `binary.LittleEndian.Uint64(buf[r+offTS:])`. -/
def qrefTS (buf : List Nat) (r : Nat) : Nat :=
  readLE buf (r + 4) 8

/-- `qref.hash`: `binary.LittleEndian.Uint64(buf[r+offHash:])`. -/
def qrefHash (buf : List Nat) (r : Nat) : Nat :=
  readLE buf (r + 12) 8

/-- The key-length field read inside `qref.key` and `qref.data`. -/
def qrefKeyLen (buf : List Nat) (r : Nat) : Nat :=
  readLE buf (r + 20) 2

/-- `qref.key`: `buf[r+offKeyStr : r+offKeyStr+kl]`. -/
def qrefKey (buf : List Nat) (r : Nat) : List Nat :=
  readBytes buf (r + 22) (qrefKeyLen buf r)

/-- `qref.data`: `buf[r+offKeyStr+kl : r+l]`. -/
def qrefData (buf : List Nat) (r : Nat) : List Nat :=
  readBytes buf (r + 22 + qrefKeyLen buf r) (qrefSize buf r - (22 + qrefKeyLen buf r))

/-- `qref.valid` for the non-negative offsets used internally by the queue
(`r` is a `Nat` here; the `r < 0` guard of the source and the partiality of
the size read are modelled by `qrefValidGo` below, which is the subject of
claim C4). -/
def qrefValid (buf : List Nat) (r : Nat) : Bool :=
  if buf.length < 4 then false
  else decide (22 ≤ qrefSize buf r) || decide (qrefSize buf r ≤ buf.length)

/-- `qref.valid` exactly as written, on `int` offsets, with Go's runtime
fault made explicit: `binary.LittleEndian.Uint32(buf[r:])` panics unless
there are at least 4 readable bytes at `r`; that case is `none`. -/
def qrefValidGo (r : Int) (buf : List Nat) : Option Bool :=
  if r < 0 then some false
  else if buf.length < 4 then some false
  else if buf.length < r.toNat + 4 then none
  else some (decide (22 ≤ qrefSize buf r.toNat) || decide (qrefSize buf r.toNat ≤ buf.length))

/-- `qref.read`: returns `none` for `ErrCacheEntryCorrupted`. -/
def qrefRead (buf : List Nat) (r : Nat) : Option CacheEntry :=
  if qrefValid buf r then
    some ⟨qrefTS buf r, qrefHash buf r, qrefKey buf r, qrefData buf r⟩
  else none

/-- `qref.write`: the successive `PutUint32/PutUint64/PutUint64/PutUint16`
and two `copy` calls of the source, at the source's offsets.  `leBytes`
keeps only the low bytes, exactly like the `uint32`/`uint16` conversions. -/
def qrefWrite (buf : List Nat) (r : Nat) (ce : CacheEntry) : List Nat :=
  writeBytes
    (writeBytes
      (writeBytes
        (writeBytes
          (writeBytes (writeBytes buf (r + 0) (leBytes 4 ce.size)) (r + 4) (leBytes 8 ce.ts))
          (r + 12) (leBytes 8 ce.hash))
        (r + 20) (leBytes 2 ce.key.length))
      (r + 22) ce.key)
    (r + 22 + ce.key.length) ce.data

/-- `qref.plug`: writes `uint32(s - r)` at `r` and zero-fills `[r+4, s)`. -/
def qrefPlug (r s : Nat) (buf : List Nat) : List Nat :=
  writeBytes (writeBytes buf r (leBytes 4 (s - r))) (r + 4) (List.replicate (s - (r + 4)) 0)

/-- `qref.clearHash`: zeroes the hash field in place. -/
def qrefClearHash (buf : List Nat) (r : Nat) : List Nat :=
  writeBytes buf (r + 12) (leBytes 8 0)

/-- The byte string `qref.write` lays down for an entry. -/
def encode (ce : CacheEntry) : List Nat :=
  leBytes 4 ce.size ++ leBytes 8 ce.ts ++ leBytes 8 ce.hash ++
    leBytes 2 ce.key.length ++ ce.key ++ ce.data

/-- Well-formed entry: the fields fit the fixed-width header slots
(`uint64` timestamp and hash, `uint16` key length, `uint32` total size),
which is what the Go types and the spec's data model (§3) guarantee. -/
def wfEntry (ce : CacheEntry) : Prop :=
  ce.ts < 2 ^ 64 ∧ ce.hash < 2 ^ 64 ∧ ce.key.length < 2 ^ 16 ∧ ce.size < 2 ^ 32

instance wfEntryDec (ce : CacheEntry) : Decidable (wfEntry ce) := by
  unfold wfEntry
  infer_instance

/-- The bytes of `buf` starting at `a` hold the serialisation of `ce`. -/
def encodedAt (buf : List Nat) (a : Nat) (ce : CacheEntry) : Prop :=
  wfEntry ce ∧ a + ce.size ≤ buf.length ∧ readBytes buf a ce.size = encode ce

instance encodedAtDec (buf : List Nat) (a : Nat) (ce : CacheEntry) :
    Decidable (encodedAt buf a ce) := by
  unfold encodedAt
  infer_instance

theorem length_encode (ce : CacheEntry) : (encode ce).length = ce.size := by
  simp [encode, length_leBytes, CacheEntry.size]
  omega

theorem size_ge_22 (ce : CacheEntry) : 22 ≤ ce.size := by
  simp only [CacheEntry.size]
  omega

theorem writeBytes_append (x y : List Nat) (buf : List Nat) (a : Nat) :
    writeBytes buf a (x ++ y) = writeBytes (writeBytes buf a x) (a + x.length) y := by
  induction x generalizing buf a with
  | nil => simp [writeBytes]
  | cons b bs ih =>
    show writeBytes (buf.set a b) (a + 1) (bs ++ y) =
      writeBytes (writeBytes (buf.set a b) (a + 1) bs) (a + (bs.length + 1)) y
    rw [ih]
    have h : a + 1 + bs.length = a + (bs.length + 1) := by omega
    rw [h]

theorem qrefWrite_eq_encode (buf : List Nat) (r : Nat) (ce : CacheEntry) :
    qrefWrite buf r ce = writeBytes buf r (encode ce) := by
  unfold qrefWrite encode
  rw [writeBytes_append, writeBytes_append, writeBytes_append, writeBytes_append,
    writeBytes_append]
  simp only [List.length_append, length_leBytes]
  norm_num
  rw [← Nat.add_assoc]

theorem length_qrefWrite (buf : List Nat) (r : Nat) (ce : CacheEntry) :
    (qrefWrite buf r ce).length = buf.length := by
  rw [qrefWrite_eq_encode, length_writeBytes]

theorem encodedAt_qrefWrite (buf : List Nat) (r : Nat) (ce : CacheEntry)
    (hwf : wfEntry ce) (hle : r + ce.size ≤ buf.length) :
    encodedAt (qrefWrite buf r ce) r ce := by
  refine ⟨hwf, ?_, ?_⟩
  · rw [length_qrefWrite]
    exact hle
  · rw [qrefWrite_eq_encode]
    have h := readBytes_writeBytes buf r (encode ce)
      (by rw [length_encode]; exact hle)
    rwa [length_encode] at h

theorem byteAt_qrefWrite_of_lt (buf : List Nat) (r : Nat) (ce : CacheEntry)
    (i : Nat) (h : i < r) : byteAt (qrefWrite buf r ce) i = byteAt buf i := by
  rw [qrefWrite_eq_encode]
  exact byteAt_writeBytes_of_lt _ _ _ _ h

theorem byteAt_qrefWrite_of_ge (buf : List Nat) (r : Nat) (ce : CacheEntry)
    (i : Nat) (h : r + ce.size ≤ i) : byteAt (qrefWrite buf r ce) i = byteAt buf i := by
  rw [qrefWrite_eq_encode]
  refine byteAt_writeBytes_of_ge _ _ _ _ ?_
  rw [length_encode]
  exact h

theorem encodedAt_byteAt (buf : List Nat) (a : Nat) (ce : CacheEntry)
    (h : encodedAt buf a ce) :
    ∀ i < ce.size, byteAt buf (a + i) = byteAt (encode ce) i := by
  intro i hi
  have hb := byteAt_readBytes buf a ce.size i hi
  rw [h.2.2] at hb
  exact hb.symm

theorem encode_assoc (ce : CacheEntry) :
    encode ce = leBytes 4 ce.size ++ (leBytes 8 ce.ts ++ (leBytes 8 ce.hash ++
      (leBytes 2 ce.key.length ++ (ce.key ++ ce.data)))) := by
  simp [encode, List.append_assoc]

theorem byteAt_encode_size (ce : CacheEntry) (i : Nat) (h : i < 4) :
    byteAt (encode ce) i = byteAt (leBytes 4 ce.size) i := by
  rw [encode_assoc, byteAt_append_left _ _ _ (by rw [length_leBytes]; omega)]

theorem byteAt_encode_ts (ce : CacheEntry) (i : Nat) (h : i < 8) :
    byteAt (encode ce) (4 + i) = byteAt (leBytes 8 ce.ts) i := by
  rw [encode_assoc, byteAt_append_right _ _ _ (by rw [length_leBytes]; omega)]
  simp only [length_leBytes]
  have h1 : 4 + i - 4 = i := by omega
  rw [h1, byteAt_append_left _ _ _ (by rw [length_leBytes]; omega)]

theorem byteAt_encode_hash (ce : CacheEntry) (i : Nat) (h : i < 8) :
    byteAt (encode ce) (12 + i) = byteAt (leBytes 8 ce.hash) i := by
  rw [encode_assoc, byteAt_append_right _ _ _ (by rw [length_leBytes]; omega)]
  simp only [length_leBytes]
  have h1 : 12 + i - 4 = 8 + i := by omega
  rw [h1, byteAt_append_right _ _ _ (by rw [length_leBytes]; omega)]
  simp only [length_leBytes]
  have h2 : 8 + i - 8 = i := by omega
  rw [h2, byteAt_append_left _ _ _ (by rw [length_leBytes]; omega)]

theorem byteAt_encode_keyLen (ce : CacheEntry) (i : Nat) (h : i < 2) :
    byteAt (encode ce) (20 + i) = byteAt (leBytes 2 ce.key.length) i := by
  rw [encode_assoc, byteAt_append_right _ _ _ (by rw [length_leBytes]; omega)]
  simp only [length_leBytes]
  have h1 : 20 + i - 4 = 16 + i := by omega
  rw [h1, byteAt_append_right _ _ _ (by rw [length_leBytes]; omega)]
  simp only [length_leBytes]
  have h2 : 16 + i - 8 = 8 + i := by omega
  rw [h2, byteAt_append_right _ _ _ (by rw [length_leBytes]; omega)]
  simp only [length_leBytes]
  have h3 : 8 + i - 8 = i := by omega
  rw [h3, byteAt_append_left _ _ _ (by rw [length_leBytes]; omega)]

theorem byteAt_encode_payload (ce : CacheEntry) (i : Nat) :
    byteAt (encode ce) (22 + i) = byteAt (ce.key ++ ce.data) i := by
  rw [encode_assoc, byteAt_append_right _ _ _ (by rw [length_leBytes]; omega)]
  simp only [length_leBytes]
  have h1 : 22 + i - 4 = 18 + i := by omega
  rw [h1, byteAt_append_right _ _ _ (by rw [length_leBytes]; omega)]
  simp only [length_leBytes]
  have h2 : 18 + i - 8 = 10 + i := by omega
  rw [h2, byteAt_append_right _ _ _ (by rw [length_leBytes]; omega)]
  simp only [length_leBytes]
  have h3 : 10 + i - 8 = 2 + i := by omega
  rw [h3, byteAt_append_right _ _ _ (by rw [length_leBytes]; omega)]
  simp only [length_leBytes]
  have h4 : 2 + i - 2 = i := by omega
  rw [h4]

theorem qrefSize_encodedAt (buf : List Nat) (a : Nat) (ce : CacheEntry)
    (h : encodedAt buf a ce) : qrefSize buf a = ce.size := by
  have hpt := encodedAt_byteAt buf a ce h
  unfold qrefSize
  rw [readLE_congr buf (leBytes 4 ce.size) (a + 0) 0 4 fun i hi => by
    rw [Nat.add_zero, Nat.zero_add, hpt i (by have := size_ge_22 ce; omega),
      byteAt_encode_size ce i hi]]
  rw [readLE_leBytes]
  have h32 : (256 : Nat) ^ 4 = 2 ^ 32 := by norm_num
  rw [h32]
  exact Nat.mod_eq_of_lt h.1.2.2.2

theorem qrefTS_encodedAt (buf : List Nat) (a : Nat) (ce : CacheEntry)
    (h : encodedAt buf a ce) : qrefTS buf a = ce.ts := by
  have hpt := encodedAt_byteAt buf a ce h
  unfold qrefTS
  rw [readLE_congr buf (leBytes 8 ce.ts) (a + 4) 0 8 fun i hi => by
    rw [Nat.zero_add, Nat.add_assoc, hpt (4 + i) (by have := size_ge_22 ce; omega),
      byteAt_encode_ts ce i hi]]
  rw [readLE_leBytes]
  have h64 : (256 : Nat) ^ 8 = 2 ^ 64 := by norm_num
  rw [h64]
  exact Nat.mod_eq_of_lt h.1.1

theorem qrefHash_encodedAt (buf : List Nat) (a : Nat) (ce : CacheEntry)
    (h : encodedAt buf a ce) : qrefHash buf a = ce.hash := by
  have hpt := encodedAt_byteAt buf a ce h
  unfold qrefHash
  rw [readLE_congr buf (leBytes 8 ce.hash) (a + 12) 0 8 fun i hi => by
    rw [Nat.zero_add, Nat.add_assoc, hpt (12 + i) (by have := size_ge_22 ce; omega),
      byteAt_encode_hash ce i hi]]
  rw [readLE_leBytes]
  have h64 : (256 : Nat) ^ 8 = 2 ^ 64 := by norm_num
  rw [h64]
  exact Nat.mod_eq_of_lt h.1.2.1

theorem qrefKeyLen_encodedAt (buf : List Nat) (a : Nat) (ce : CacheEntry)
    (h : encodedAt buf a ce) : qrefKeyLen buf a = ce.key.length := by
  have hpt := encodedAt_byteAt buf a ce h
  unfold qrefKeyLen
  rw [readLE_congr buf (leBytes 2 ce.key.length) (a + 20) 0 2 fun i hi => by
    rw [Nat.zero_add, Nat.add_assoc, hpt (20 + i) (by have := size_ge_22 ce; omega),
      byteAt_encode_keyLen ce i hi]]
  rw [readLE_leBytes]
  have h16 : (256 : Nat) ^ 2 = 2 ^ 16 := by norm_num
  rw [h16]
  exact Nat.mod_eq_of_lt h.1.2.2.1

theorem qrefKey_encodedAt (buf : List Nat) (a : Nat) (ce : CacheEntry)
    (h : encodedAt buf a ce) : qrefKey buf a = ce.key := by
  have hpt := encodedAt_byteAt buf a ce h
  have hsz : a + ce.size ≤ buf.length := h.2.1
  have hsize : ce.size = 22 + ce.key.length + ce.data.length := rfl
  unfold qrefKey
  rw [qrefKeyLen_encodedAt buf a ce h]
  refine eq_of_byteAt_eq _ _ ?_ fun i hi => ?_
  · rw [length_readBytes]
    omega
  · rw [length_readBytes] at hi
    have hik : i < ce.key.length := by omega
    rw [byteAt_readBytes _ _ _ _ hik, Nat.add_assoc,
      hpt (22 + i) (by omega), byteAt_encode_payload,
      byteAt_append_left _ _ _ hik]

theorem qrefData_encodedAt (buf : List Nat) (a : Nat) (ce : CacheEntry)
    (h : encodedAt buf a ce) : qrefData buf a = ce.data := by
  have hpt := encodedAt_byteAt buf a ce h
  have hsz : a + ce.size ≤ buf.length := h.2.1
  have hsize : ce.size = 22 + ce.key.length + ce.data.length := rfl
  unfold qrefData
  rw [qrefKeyLen_encodedAt buf a ce h, qrefSize_encodedAt buf a ce h]
  have hd : ce.size - (22 + ce.key.length) = ce.data.length := by omega
  rw [hd]
  refine eq_of_byteAt_eq _ _ ?_ fun i hi => ?_
  · rw [length_readBytes]
    omega
  · rw [length_readBytes] at hi
    have hid : i < ce.data.length := by omega
    rw [byteAt_readBytes _ _ _ _ hid]
    have harith : a + 22 + ce.key.length + i = a + (22 + (ce.key.length + i)) := by
      omega
    rw [harith, hpt (22 + (ce.key.length + i)) (by omega), byteAt_encode_payload,
      byteAt_append_right _ _ _ (by omega)]
    congr 1
    omega

theorem qrefValid_encodedAt (buf : List Nat) (a : Nat) (ce : CacheEntry)
    (h : encodedAt buf a ce) : qrefValid buf a = true := by
  have hsz : a + ce.size ≤ buf.length := h.2.1
  have h22 := size_ge_22 ce
  unfold qrefValid
  rw [if_neg (by omega), qrefSize_encodedAt buf a ce h]
  simp only [Bool.or_eq_true, decide_eq_true_eq]
  left
  exact h22

/-- Decode-after-encode: reading at an offset holding `ce` recovers `ce`. -/
theorem qrefRead_encodedAt (buf : List Nat) (a : Nat) (ce : CacheEntry)
    (h : encodedAt buf a ce) : qrefRead buf a = some ce := by
  unfold qrefRead
  rw [if_pos (qrefValid_encodedAt buf a ce h), qrefTS_encodedAt buf a ce h,
    qrefHash_encodedAt buf a ce h, qrefKey_encodedAt buf a ce h,
    qrefData_encodedAt buf a ce h]

/-- An encoding survives any modification outside its byte range, as long
as the buffer does not shrink. -/
theorem encodedAt_congr (buf1 buf2 : List Nat) (a : Nat) (ce : CacheEntry)
    (hlen : buf1.length ≤ buf2.length)
    (h : ∀ i, a ≤ i → i < a + ce.size → byteAt buf1 i = byteAt buf2 i)
    (he : encodedAt buf1 a ce) : encodedAt buf2 a ce := by
  refine ⟨he.1, by have := he.2.1; omega, ?_⟩
  refine eq_of_byteAt_eq _ _ ?_ fun i hi => ?_
  · rw [length_readBytes, length_encode]
    have := he.2.1
    omega
  · rw [length_readBytes] at hi
    have hisz : i < ce.size := by omega
    rw [byteAt_readBytes _ _ _ _ hisz, ← h (a + i) (by omega) (by omega),
      encodedAt_byteAt buf1 a ce he i hisz]

/-! ## Byte ring queue (`bytes_queue.go`)

Errors are modelled by `QueueErr`; mutating operations return the updated
queue next to their result (the Go methods mutate the receiver).  The queue
offsets `head`, `tail`, `right` have Go type `qref = int` but are never
negative (they start at 0, are only ever wrapped to 0 or advanced by
non-negative sizes), so they are carried as `Nat`; every comparison the
source performs with a subtraction that could go negative is done in `Int`
below, exactly as Go's `int` arithmetic does. -/

inductive QueueErr where
  | empty
  | full
  | invalidIndex
  | tooBig
deriving DecidableEq, Repr

instance exceptDecEq {α β : Type} [DecidableEq α] [DecidableEq β] :
    DecidableEq (Except α β) := fun a b =>
  match a, b with
  | Except.error x, Except.error y =>
    decidable_of_iff (x = y)
      ⟨fun h => by rw [h], fun h => by injection h⟩
  | Except.error _, Except.ok _ => isFalse fun h => Except.noConfusion h
  | Except.ok _, Except.error _ => isFalse fun h => Except.noConfusion h
  | Except.ok x, Except.ok y =>
    decidable_of_iff (x = y)
      ⟨fun h => by rw [h], fun h => by injection h⟩

structure bytesQueue where
  count : Nat
  maxCapacity : Nat
  array : List Nat
  head : Nat
  tail : Nat
  right : Nat
deriving DecidableEq, Repr

/-- `newBytesQueue`: `make([]byte, initialCapacity)` zero-fills. -/
def newBytesQueue (initialCapacity maxCapacity : Nat) : bytesQueue :=
  { count := 0, maxCapacity := maxCapacity,
    array := List.replicate initialCapacity 0, head := 0, tail := 0, right := 0 }

/-- `(*bytesQueue).cap()`: number of allocated bytes. -/
def bytesQueue.capQ (q : bytesQueue) : Nat :=
  q.array.length

/-- `(*bytesQueue).expand(minimum)`: reallocates the array keeping all
existing indices unchanged.  Returns the updated queue and `some err` on
failure (the Go method returns only the error; the receiver is the state). -/
def expandQ (q : bytesQueue) (minimum : Nat) : bytesQueue × Option QueueErr :=
  let capacity0 := q.array.length
  let capacity1 := if capacity0 < minimum then capacity0 + minimum else capacity0
  let capacity := capacity1 * 2
  let capacity2 := if 0 < q.maxCapacity ∧ q.maxCapacity < capacity then q.maxCapacity else capacity
  if capacity2 < minimum ∨ capacity2 = 0 then (q, some .tooBig)
  else
    if q.right ≠ 0 then
      -- copy(q.array, old[:q.right]) into the fresh zeroed array
      let newArr := writeBytes (List.replicate capacity2 0) 0 (readBytes q.array 0 q.right)
      if q.tail < q.head then
        let q2 : bytesQueue :=
          { q with
            array := qrefPlug q.tail q.head newArr
            head := 0
            tail := q.right
            count := q.count + 1 }
        (q2, none)
      else ({ q with array := newArr }, none)
    else ({ q with array := List.replicate capacity2 0 }, none)

/-- The unconditional last part of `push` (lines 71–80 of the source):
write at `tail`, advance `tail`, update `right`, bump `count`, return the
old `tail` as the entry's `qref`. -/
def pushWrite (q : bytesQueue) (ce : CacheEntry) : bytesQueue × Except QueueErr Nat :=
  let arr := qrefWrite q.array q.tail ce
  let ref := q.tail
  let tail1 := q.tail + ce.size
  let right1 := if q.head < tail1 then tail1 else q.right
  ({ q with array := arr, tail := tail1, right := right1, count := q.count + 1 },
    .ok ref)

/-- `(*bytesQueue).push(ce)`; `blobSize = (*CacheEntry).Size(nil) = 22`. -/
def pushQ (q : bytesQueue) (ce : CacheEntry) : bytesQueue × Except QueueErr Nat :=
  let size := ce.size
  if q.head ≤ q.tail then
    -- o___hDDDDDDDDtr___c : check after tail, then before head
    if (q.array.length : Int) - (q.tail : Int) < (size : Int) then
      if (size : Int) ≤ (q.head : Int) - 22 then
        pushWrite { q with tail := 0 } ce
      else if 0 < q.maxCapacity ∧ q.maxCapacity ≤ q.array.length + size then
        (q, .error .full)
      else
        match expandQ q size with
        | (q1, none) => pushWrite q1 ce
        | (q1, some e) => (q1, .error e)
    else pushWrite q ce
  else
    -- oDDDt________hDDDrc : see if entry fits between head and tail
    if (q.head : Int) - (q.tail : Int) - 22 < (size : Int) then
      if 0 < q.maxCapacity ∧ q.maxCapacity ≤ q.array.length + size then
        (q, .error .full)
      else
        match expandQ q size with
        | (q1, none) => pushWrite q1 ce
        | (q1, some e) => (q1, .error e)
    else pushWrite q ce

/-- `(*bytesQueue).pop()`: the returned `qref` is the old `head`; after
advancing `head` past the entry, reaching `right` wraps `head` (and `tail`
when it sits exactly at `right`) and resets `right` to the (possibly
wrapped) `tail`. -/
def popQ (q : bytesQueue) : bytesQueue × Except QueueErr Nat :=
  if q.count = 0 then (q, .error .empty)
  else if ¬ qrefValid q.array q.head then (q, .error .invalidIndex)
  else if q.head + qrefSize q.array q.head = q.right then
    ({ q with head := 0, tail := if q.tail = q.right then 0 else q.tail, right := if q.tail = q.right then 0 else q.tail, count := q.count - 1 }, .ok q.head)
  else
    ({ q with head := q.head + qrefSize q.array q.head, count := q.count - 1 }, .ok q.head)

/-- `(*bytesQueue).peek(r)`: `none` means success. -/
def peekQ (q : bytesQueue) (r : Nat) : Option QueueErr :=
  if q.count = 0 then some .empty
  else if ¬ qrefValid q.array r ∨ q.right < r then some .invalidIndex
  else none

/-- `(*bytesQueue).oldest()`. -/
def oldestQ (q : bytesQueue) : Except QueueErr Nat :=
  match peekQ q q.head with
  | some e => .error e
  | none => .ok q.head

/-- `(*bytesQueue).collide(r, key)`: `!bytes.Equal(key, r.key(q.array))`. -/
def collideQ (q : bytesQueue) (r : Nat) (key : List Nat) : Bool :=
  decide (key ≠ qrefKey q.array r)

/-- `(*bytesQueue).get(r)`. -/
def getQ (q : bytesQueue) (r : Nat) : Option CacheEntry :=
  qrefRead q.array r

/-- `(*bytesQueue).getTS(r)`. -/
def getTSQ (q : bytesQueue) (r : Nat) : Nat :=
  qrefTS q.array r

/-- `(*bytesQueue).getHash(r)`. -/
def getHashQ (q : bytesQueue) (r : Nat) : Nat :=
  qrefHash q.array r

/-- `(*bytesQueue).getKey(r)`. -/
def getKeyQ (q : bytesQueue) (r : Nat) : List Nat :=
  qrefKey q.array r

/-- `(*bytesQueue).getDataCopy(r)`: `append([]byte{}, r.data(q.array)...)`
copies the bytes; the copied list is equal to the original as a value. -/
def getDataCopyQ (q : bytesQueue) (r : Nat) : List Nat :=
  qrefData q.array r

/-- `(*bytesQueue).delete(r)`: tombstone in place by zeroing the hash. -/
def deleteQ (q : bytesQueue) (r : Nat) : bytesQueue × Option QueueErr :=
  if q.count = 0 then (q, some .empty)
  else if ¬ qrefValid q.array r ∨ q.right < r then (q, some .invalidIndex)
  else ({ q with array := qrefClearHash q.array r }, none)

/-- `(*bytesQueue).reset()`: just resets the indices. -/
def resetQ (q : bytesQueue) : bytesQueue :=
  { q with tail := 0, head := 0, right := 0, count := 0 }

theorem length_qrefPlug (r s : Nat) (buf : List Nat) :
    (qrefPlug r s buf).length = buf.length := by
  unfold qrefPlug
  rw [length_writeBytes, length_writeBytes]

/-- The capacity policy in the words of the spec (§4.2), for the refinement
comparison of claim C2: `max(current, minimum) * 2`, clamped to
`max_capacity` if set. -/
def expandCapacitySpec (current minimum maxCapacity : Nat) : Nat :=
  let c := max current minimum * 2
  if 0 < maxCapacity ∧ maxCapacity < c then maxCapacity else c

/-- The capacity `expand` actually chooses: it doubles `current + minimum`
when `current < minimum` (not `max(current, minimum)`), else doubles
`current`, then clamps to `max_capacity` if set. -/
def expandCapacityCode (current minimum maxCapacity : Nat) : Nat :=
  let c := (if current < minimum then current + minimum else current) * 2
  if 0 < maxCapacity ∧ maxCapacity < c then maxCapacity else c

/-- `expand` written with its chosen capacity factored out (pure
let-reduction of the definition). -/
theorem expandQ_eq (q : bytesQueue) (minimum : Nat) :
    expandQ q minimum =
      if expandCapacityCode q.array.length minimum q.maxCapacity < minimum ∨
          expandCapacityCode q.array.length minimum q.maxCapacity = 0 then
        (q, some QueueErr.tooBig)
      else if q.right ≠ 0 then
        if q.tail < q.head then
          ({ q with
              array := qrefPlug q.tail q.head
                (writeBytes
                  (List.replicate (expandCapacityCode q.array.length minimum q.maxCapacity) 0)
                  0 (readBytes q.array 0 q.right))
              head := 0
              tail := q.right
              count := q.count + 1 }, none)
        else
          ({ q with
              array := writeBytes
                (List.replicate (expandCapacityCode q.array.length minimum q.maxCapacity) 0)
                0 (readBytes q.array 0 q.right) }, none)
      else
        ({ q with
            array := List.replicate (expandCapacityCode q.array.length minimum q.maxCapacity) 0 },
          none) :=
  rfl

/-- Claim C2 (corrected): full characterisation of `expand`.  It succeeds
exactly when the clamped capacity `expandCapacityCode` is at least
`minimum` and positive; on success the new allocation has exactly that
capacity; on failure the queue is untouched. -/
theorem expand_capacity_policy (q : bytesQueue) (minimum : Nat) :
    ((expandQ q minimum).2 = none ↔
      minimum ≤ expandCapacityCode q.array.length minimum q.maxCapacity ∧
        0 < expandCapacityCode q.array.length minimum q.maxCapacity) ∧
    ((expandQ q minimum).2 = none →
      (expandQ q minimum).1.array.length =
        expandCapacityCode q.array.length minimum q.maxCapacity) ∧
    ((expandQ q minimum).2 ≠ none → (expandQ q minimum).1 = q) := by
  rw [expandQ_eq]
  set capF := expandCapacityCode q.array.length minimum q.maxCapacity with hcapF
  by_cases herr : capF < minimum ∨ capF = 0
  · rw [if_pos herr]
    refine ⟨⟨fun h => Option.noConfusion h, fun h => absurd herr (by omega)⟩,
      fun h => Option.noConfusion h, fun _ => rfl⟩
  · rw [if_neg herr]
    by_cases hr : q.right ≠ 0
    · rw [if_pos hr]
      by_cases hw : q.tail < q.head
      · rw [if_pos hw]
        refine ⟨⟨fun _ => by omega, fun _ => rfl⟩, fun _ => ?_, fun h => absurd rfl h⟩
        simp only [length_qrefPlug, length_writeBytes, List.length_replicate]
      · rw [if_neg hw]
        refine ⟨⟨fun _ => by omega, fun _ => rfl⟩, fun _ => ?_, fun h => absurd rfl h⟩
        simp only [length_writeBytes, List.length_replicate]
    · rw [if_neg hr]
      refine ⟨⟨fun _ => by omega, fun _ => rfl⟩, fun _ => ?_, fun h => absurd rfl h⟩
      simp only [List.length_replicate]

/-- Claim C2 witness: on a queue of capacity 5 with no cap, expanding for a
24-byte entry succeeds and allocates `(5 + 24) * 2 = 58` bytes. -/
theorem expand_capacity_policy_witness :
    (expandQ (newBytesQueue 5 0) 24).2 = none ∧
      (expandQ (newBytesQueue 5 0) 24).1.array.length =
        expandCapacityCode 5 24 0 := by
  have h := expand_capacity_policy (newBytesQueue 5 0) 24
  have hnone : (expandQ (newBytesQueue 5 0) 24).2 = none :=
    h.1.mpr (by decide)
  exact ⟨hnone, h.2.1 hnone⟩

/-- Claim C2 counterexample: `push` of a 24-byte entry into a fresh queue
of capacity 5 (no cap set) grows the allocation to `(5 + 24) * 2 = 58`
bytes, not to the spec's `max(5, 24) * 2 = 48`. -/
theorem expand_capacity_spec_mismatch :
    (pushQ (newBytesQueue 5 0) ⟨0, 0, [], [0, 0]⟩).1.array.length = 58 ∧
      (⟨0, 0, [], [0, 0]⟩ : CacheEntry).size = 24 ∧
      expandCapacitySpec 5 24 0 = 48 := by
  decide

/-- Claim C4 (corrected): whenever `qref.valid` returns at all, it returns
`true` exactly under the condition the spec states; but it is not total —
it faults (Go: index-out-of-range panic inside `binary.LittleEndian.Uint32`)
exactly when the offset is non-negative, the buffer has at least 4 bytes
overall, but fewer than 4 bytes remain at the offset. -/
theorem valid_characterisation (r : Int) (buf : List Nat) :
    (qrefValidGo r buf = some true ↔
      0 ≤ r ∧ r.toNat + 4 ≤ buf.length ∧
        (22 ≤ qrefSize buf r.toNat ∨ qrefSize buf r.toNat ≤ buf.length)) ∧
    (qrefValidGo r buf = none ↔ 0 ≤ r ∧ 4 ≤ buf.length ∧ buf.length < r.toNat + 4) := by
  unfold qrefValidGo
  by_cases h1 : r < 0
  · rw [if_pos h1]
    refine ⟨⟨fun h => absurd h (by decide), fun h => ?_⟩,
      ⟨fun h => absurd h (by decide), fun h => ?_⟩⟩
    · exfalso
      omega
    · exfalso
      omega
  · rw [if_neg h1]
    by_cases h2 : buf.length < 4
    · rw [if_pos h2]
      refine ⟨⟨fun h => absurd h (by decide), fun h => ?_⟩,
        ⟨fun h => absurd h (by decide), fun h => ?_⟩⟩
      · exfalso
        omega
      · exfalso
        omega
    · rw [if_neg h2]
      by_cases h3 : buf.length < r.toNat + 4
      · rw [if_pos h3]
        refine ⟨⟨fun h => absurd h (by decide), fun h => ?_⟩,
          ⟨fun _ => ⟨by omega, by omega, by omega⟩, fun _ => rfl⟩⟩
        exfalso
        omega
      · rw [if_neg h3]
        refine ⟨?_, ⟨fun h => Option.noConfusion h, fun h => ?_⟩⟩
        · simp only [Option.some_inj, Bool.or_eq_true, decide_eq_true_eq]
          exact ⟨fun h => ⟨by omega, by omega, h⟩, fun h => h.2.2⟩
        · exfalso
          omega

/-- Claim C4 counterexample: on a 5-byte buffer at offset 2 there are only
3 readable bytes; the claim requires the answer `false`, but `qref.valid`
faults (the 4-byte size read panics), modelled by `none`. -/
theorem valid_not_total :
    qrefValidGo 2 [0, 0, 0, 0, 0] = none := by
  decide

/-- Pushing an entry larger than the configured `maxCapacity` into a queue
whose allocation respects that cap always takes the `ErrQueueFull` branch,
before any buffer write or pointer mutation. -/
theorem push_oversized (q : bytesQueue) (ce : CacheEntry)
    (hmax : 0 < q.maxCapacity) (hcap : q.array.length ≤ q.maxCapacity)
    (hhead : q.head ≤ q.array.length) (hbig : q.maxCapacity < ce.size) :
    pushQ q ce = (q, .error .full) := by
  unfold pushQ
  by_cases hw : q.head ≤ q.tail
  · rw [if_pos hw, if_pos (by omega), if_neg (by omega), if_pos ⟨hmax, by omega⟩]
  · rw [if_neg hw, if_pos (by omega), if_pos ⟨hmax, by omega⟩]

/-- Claim C6: pushing an entry whose serialised size exceeds the
configured `max_capacity` returns `ErrQueueFull` or `ErrQueueEntryTooBig`
(in fact always `ErrQueueFull`, since the cap branch fires first), and the
queue — `head`, `tail`, `right`, `count` and the stored bytes — is
returned unchanged; the error return precedes the unguarded buffer write,
which is the only panic site of `push`. -/
theorem push_oversized_fails (q : bytesQueue) (ce : CacheEntry)
    (hmax : 0 < q.maxCapacity) (hcap : q.array.length ≤ q.maxCapacity)
    (hhead : q.head ≤ q.array.length) (hbig : q.maxCapacity < ce.size) :
    ((pushQ q ce).2 = .error .full ∨ (pushQ q ce).2 = .error .tooBig) ∧
      (pushQ q ce).1 = q := by
  rw [push_oversized q ce hmax hcap hhead hbig]
  exact ⟨Or.inl rfl, rfl⟩

/-- Claim C6 witness: a 22-byte entry against a queue capped at 20 bytes. -/
theorem push_oversized_fails_witness :
    ((pushQ (newBytesQueue 10 20) ⟨0, 0, [], []⟩).2 = .error .full ∨
      (pushQ (newBytesQueue 10 20) ⟨0, 0, [], []⟩).2 = .error .tooBig) ∧
      (pushQ (newBytesQueue 10 20) ⟨0, 0, [], []⟩).1 = newBytesQueue 10 20 :=
  push_oversized_fails (newBytesQueue 10 20) ⟨0, 0, [], []⟩ (by decide) (by decide)
    (by decide) (by decide)

/-! ## Layout invariant of the ring

`chain buf a b l` says the region `[a, b)` of `buf` is a back-to-back
sequence of encoded entries whose offsets and contents are listed by `l`.
`lives q l1 l2` is the queue's resting-state invariant: `l1` is the chain
from `head` (up to `tail` when unwrapped, up to `right` when wrapped) and
`l2` the chain from `0` to `tail` in the wrapped case. -/

def chain (buf : List Nat) : Nat → Nat → List (Nat × CacheEntry) → Prop
  | a, b, [] => a = b
  | a, b, p :: l => p.1 = a ∧ encodedAt buf a p.2 ∧ chain buf (a + p.2.size) b l

def chainDec (buf : List Nat) :
    (a b : Nat) → (l : List (Nat × CacheEntry)) → Decidable (chain buf a b l)
  | a, b, [] => inferInstanceAs (Decidable (a = b))
  | a, b, p :: l =>
    have : Decidable (chain buf (a + p.2.size) b l) := chainDec buf _ b l
    inferInstanceAs (Decidable (_ ∧ _ ∧ _))

instance (buf : List Nat) (a b : Nat) (l : List (Nat × CacheEntry)) :
    Decidable (chain buf a b l) :=
  chainDec buf a b l

theorem chain_le (buf : List Nat) (l : List (Nat × CacheEntry)) :
    ∀ a b, chain buf a b l → a ≤ b := by
  induction l with
  | nil =>
    intro a b h
    exact Nat.le_of_eq h
  | cons p l ih =>
    intro a b h
    have h2 := ih (a + p.2.size) b h.2.2
    omega

theorem chain_cons_bound (buf : List Nat) (p : Nat × CacheEntry)
    (l : List (Nat × CacheEntry)) (a b : Nat) (h : chain buf a b (p :: l)) :
    a + 22 ≤ b := by
  have h1 := chain_le buf l (a + p.2.size) b h.2.2
  have h2 := size_ge_22 p.2
  omega

theorem chain_self (buf : List Nat) (a : Nat) (l : List (Nat × CacheEntry))
    (h : chain buf a a l) : l = [] := by
  cases l with
  | nil => rfl
  | cons p l =>
    have := chain_cons_bound buf p l a a h
    omega

theorem chain_ne_nil (buf : List Nat) (a b : Nat) (l : List (Nat × CacheEntry))
    (h : chain buf a b l) (hne : a ≠ b) : l ≠ [] := by
  cases l with
  | nil => exact absurd h hne
  | cons p l => simp

theorem chain_mem (buf : List Nat) (l : List (Nat × CacheEntry)) :
    ∀ a b, chain buf a b l → ∀ r e, (r, e) ∈ l →
      encodedAt buf r e ∧ a ≤ r ∧ r + e.size ≤ b := by
  induction l with
  | nil =>
    intro a b _ r e hm
    cases hm
  | cons p l ih =>
    intro a b h r e hm
    rcases List.mem_cons.mp hm with hm | hm
    · obtain rfl : p = (r, e) := hm.symm
      have hra : r = a := h.1
      subst hra
      have hsz : r + e.size ≤ b := chain_le buf l (r + e.size) b h.2.2
      exact ⟨h.2.1, Nat.le_refl _, hsz⟩
    · have := ih (a + p.2.size) b h.2.2 r e hm
      exact ⟨this.1, by omega, this.2.2⟩

theorem chain_append (buf : List Nat) (l1 l2 : List (Nat × CacheEntry)) :
    ∀ a m b, chain buf a m l1 → chain buf m b l2 → chain buf a b (l1 ++ l2) := by
  induction l1 with
  | nil =>
    intro a m b h1 h2
    rw [show a = m from h1]
    exact h2
  | cons p l ih =>
    intro a m b h1 h2
    exact ⟨h1.1, h1.2.1, ih _ _ _ h1.2.2 h2⟩

/-- A chain survives any buffer change that keeps its bytes and does not
shrink the buffer. -/
theorem chain_congr (buf1 buf2 : List Nat) (l : List (Nat × CacheEntry)) :
    ∀ a b, buf1.length ≤ buf2.length →
      (∀ i, a ≤ i → i < b → byteAt buf1 i = byteAt buf2 i) →
      chain buf1 a b l → chain buf2 a b l := by
  induction l with
  | nil =>
    intro a b _ _ h
    exact h
  | cons p l ih =>
    intro a b hlen hb h
    have hbound := chain_le buf1 l (a + p.2.size) b h.2.2
    refine ⟨h.1, ?_, ?_⟩
    · refine encodedAt_congr buf1 buf2 a p.2 hlen (fun i h1 h2 => hb i h1 (by omega)) h.2.1
    · exact ih (a + p.2.size) b hlen (fun i h1 h2 => hb i (by omega) h2) h.2.2

/-- Offsets in a chain are strictly increasing, hence unique. -/
theorem chain_offset_unique (buf : List Nat) (l : List (Nat × CacheEntry)) :
    ∀ a b, chain buf a b l → ∀ r e e', (r, e) ∈ l → (r, e') ∈ l → e = e' := by
  induction l with
  | nil =>
    intro a b _ r e e' hm
    cases hm
  | cons p l ih =>
    intro a b h r e e' hm hm'
    rcases List.mem_cons.mp hm with hm1 | hm1 <;> rcases List.mem_cons.mp hm' with hm2 | hm2
    · obtain rfl : p = (r, e) := hm1.symm
      exact (Prod.ext_iff.mp hm2).2.symm
    · exfalso
      obtain rfl : p = (r, e) := hm1.symm
      have hra : r = a := h.1
      have hmem : r + e.size ≤ r ∧ True := by
        have h2 := (chain_mem buf l (r + e.size) b (hra ▸ h.2.2) r e' hm2).2.1
        have h22 := size_ge_22 e
        exact ⟨by omega, trivial⟩
      have h22 := size_ge_22 e
      omega
    · exfalso
      obtain rfl : p = (r, e') := hm2.symm
      have hra : r = a := h.1
      have hmem : r + e'.size ≤ r ∧ True := by
        have h2 := (chain_mem buf l (r + e'.size) b (hra ▸ h.2.2) r e hm1).2.1
        have h22 := size_ge_22 e'
        exact ⟨by omega, trivial⟩
      have h22 := size_ge_22 e'
      omega
    · exact ih (a + p.2.size) b h.2.2 r e e' hm1 hm2

/-- The resting-state well-formedness invariant of `bytesQueue` together
with its abstract contents. -/
def lives (q : bytesQueue) (l1 l2 : List (Nat × CacheEntry)) : Prop :=
  q.right ≤ q.array.length ∧ q.tail ≤ q.array.length ∧ q.head ≤ q.array.length ∧
    (q.maxCapacity = 0 ∨ q.array.length ≤ q.maxCapacity) ∧
    ((q.head ≤ q.tail ∧ q.right = q.tail ∧ l2 = [] ∧ chain q.array q.head q.tail l1 ∧
        q.count = l1.length ∧ (q.head = q.tail → q.head = 0)) ∨
      (q.tail + 22 ≤ q.head ∧ l1 ≠ [] ∧ chain q.array q.head q.right l1 ∧
        chain q.array 0 q.tail l2 ∧ q.count = l1.length + l2.length))

instance livesDec (q : bytesQueue) (l1 l2 : List (Nat × CacheEntry)) :
    Decidable (lives q l1 l2) := by
  unfold lives
  infer_instance

/-- A fresh queue is well formed and empty. -/
theorem lives_newBytesQueue (initialCapacity maxCapacity : Nat)
    (hcap : maxCapacity = 0 ∨ initialCapacity ≤ maxCapacity) :
    lives (newBytesQueue initialCapacity maxCapacity) [] [] := by
  refine ⟨by simp [newBytesQueue], by simp [newBytesQueue], by simp [newBytesQueue],
    ?_, Or.inl ⟨Nat.le_refl 0, rfl, rfl, rfl, rfl, fun _ => rfl⟩⟩
  simp only [newBytesQueue, List.length_replicate]
  exact hcap

/-- Reset keeps the allocation and empties the queue. -/
theorem lives_resetQ (q : bytesQueue) (l1 l2 : List (Nat × CacheEntry))
    (h : lives q l1 l2) : lives (resetQ q) [] [] := by
  refine ⟨Nat.zero_le _, Nat.zero_le _, Nat.zero_le _, h.2.2.2.1,
    Or.inl ⟨Nat.le_refl 0, rfl, rfl, rfl, rfl, fun _ => rfl⟩⟩

/-- Any live entry reads back exactly as it was written. -/
theorem getQ_lives (q : bytesQueue) (l1 l2 : List (Nat × CacheEntry))
    (h : lives q l1 l2) (r : Nat) (e : CacheEntry) (hm : (r, e) ∈ l1 ++ l2) :
    getQ q r = some e := by
  rcases List.mem_append.mp hm with hm | hm
  · rcases h.2.2.2.2 with hu | hw
    · exact qrefRead_encodedAt _ _ _ (chain_mem _ _ _ _ hu.2.2.2.1 r e hm).1
    · exact qrefRead_encodedAt _ _ _ (chain_mem _ _ _ _ hw.2.2.1 r e hm).1
  · rcases h.2.2.2.2 with hu | hw
    · rw [hu.2.2.1] at hm
      cases hm
    · exact qrefRead_encodedAt _ _ _ (chain_mem _ _ _ _ hw.2.2.2.1 r e hm).1

/-- Peek succeeds on every live entry. -/
theorem peekQ_lives (q : bytesQueue) (l1 l2 : List (Nat × CacheEntry))
    (h : lives q l1 l2) (r : Nat) (e : CacheEntry) (hm : (r, e) ∈ l1 ++ l2) :
    peekQ q r = none := by
  obtain ⟨henc, hr⟩ : encodedAt q.array r e ∧ r ≤ q.right := by
    rcases List.mem_append.mp hm with hm | hm
    · rcases h.2.2.2.2 with hu | hw
      · have := chain_mem _ _ _ _ hu.2.2.2.1 r e hm
        have h22 := size_ge_22 e
        exact ⟨this.1, by omega⟩
      · have := chain_mem _ _ _ _ hw.2.2.1 r e hm
        have h22 := size_ge_22 e
        exact ⟨this.1, by omega⟩
    · rcases h.2.2.2.2 with hu | hw
      · rw [hu.2.2.1] at hm
        cases hm
      · have := chain_mem _ _ _ _ hw.2.2.2.1 r e hm
        have h22 := size_ge_22 e
        have hhr := chain_le q.array l1 q.head q.right hw.2.2.1
        have hgap := hw.1
        exact ⟨this.1, by omega⟩
  have hcount : q.count ≠ 0 := by
    intro hc
    have hlen : l1.length = 0 ∧ l2.length = 0 := by
      rcases h.2.2.2.2 with hu | hw
      · have h1 : q.count = l1.length := hu.2.2.2.2.1
        have h2 : l2 = [] := hu.2.2.1
        subst h2
        refine ⟨?_, rfl⟩
        rw [← h1]
        exact hc
      · have h1 : q.count = l1.length + l2.length := hw.2.2.2.2
        omega
    have hnil : l1 ++ l2 = [] := by
      have hap := List.length_append l1 l2
      exact List.length_eq_zero.mp (by omega)
    rw [hnil] at hm
    cases hm
  have hvalid := qrefValid_encodedAt _ _ _ henc
  have hcond : ¬ (¬ (qrefValid q.array r = true) ∨ q.right < r) := by
    push_neg
    exact ⟨hvalid, by omega⟩
  unfold peekQ
  rw [if_neg hcount, if_neg hcond]

theorem chain_qrefWrite_above (buf : List Nat) (w : Nat) (ce : CacheEntry)
    (a b : Nat) (l : List (Nat × CacheEntry)) (hb : b ≤ w)
    (h : chain buf a b l) : chain (qrefWrite buf w ce) a b l :=
  chain_congr buf (qrefWrite buf w ce) l a b (by rw [length_qrefWrite])
    (fun i _ h2 => (byteAt_qrefWrite_of_lt buf w ce i (by omega)).symm) h

theorem chain_qrefWrite_below (buf : List Nat) (w : Nat) (ce : CacheEntry)
    (a b : Nat) (l : List (Nat × CacheEntry)) (ha : w + ce.size ≤ a)
    (h : chain buf a b l) : chain (qrefWrite buf w ce) a b l :=
  chain_congr buf (qrefWrite buf w ce) l a b (by rw [length_qrefWrite])
    (fun i h1 _ => (byteAt_qrefWrite_of_ge buf w ce i (by omega)).symm) h

/-- `push`'s trailing write step, in the unwrapped case with room at the
tail: appends the entry to the live chain. -/
theorem pushWrite_lives_fit (q : bytesQueue) (ce : CacheEntry)
    (l1 : List (Nat × CacheEntry)) (hwf : wfEntry ce)
    (hcapmax : q.maxCapacity = 0 ∨ q.array.length ≤ q.maxCapacity)
    (hhead : q.head ≤ q.array.length)
    (hunw : q.head ≤ q.tail) (hright : q.right = q.tail)
    (hchain : chain q.array q.head q.tail l1) (hcount : q.count = l1.length)
    (hroom : q.tail + ce.size ≤ q.array.length) :
    lives (pushWrite q ce).1 (l1 ++ [(q.tail, ce)]) [] ∧
      (pushWrite q ce).2 = Except.ok q.tail := by
  have h22 := size_ge_22 ce
  have hlt : q.head < q.tail + ce.size := by omega
  have henc : encodedAt (qrefWrite q.array q.tail ce) q.tail ce :=
    encodedAt_qrefWrite q.array q.tail ce hwf hroom
  have hch1 : chain (qrefWrite q.array q.tail ce) q.head q.tail l1 :=
    chain_qrefWrite_above q.array q.tail ce q.head q.tail l1 (Nat.le_refl _) hchain
  have hch : chain (qrefWrite q.array q.tail ce) q.head (q.tail + ce.size)
      (l1 ++ [(q.tail, ce)]) :=
    chain_append _ _ _ _ _ _ hch1 ⟨rfl, henc, rfl⟩
  constructor
  · show lives
      ⟨q.count + 1, q.maxCapacity, qrefWrite q.array q.tail ce, q.head,
        q.tail + ce.size, if q.head < q.tail + ce.size then q.tail + ce.size else q.right⟩
      (l1 ++ [(q.tail, ce)]) []
    rw [if_pos hlt]
    refine ⟨?_, ?_, ?_, ?_, Or.inl ⟨?_, rfl, rfl, hch, ?_, ?_⟩⟩
    · show q.tail + ce.size ≤ (qrefWrite q.array q.tail ce).length
      rw [length_qrefWrite]
      exact hroom
    · show q.tail + ce.size ≤ (qrefWrite q.array q.tail ce).length
      rw [length_qrefWrite]
      exact hroom
    · show q.head ≤ (qrefWrite q.array q.tail ce).length
      rw [length_qrefWrite]
      omega
    · show q.maxCapacity = 0 ∨ (qrefWrite q.array q.tail ce).length ≤ q.maxCapacity
      rw [length_qrefWrite]
      exact hcapmax
    · show q.head ≤ q.tail + ce.size
      omega
    · show q.count + 1 = (l1 ++ [(q.tail, ce)]).length
      simp only [List.length_append, List.length_cons, List.length_nil, hcount]
    · show q.head = q.tail + ce.size → q.head = 0
      intro hx
      omega
  · rfl

/-- `push`'s trailing write step, writing into the low segment with at least
a header-sized gap kept before `head`: appends the entry to the low chain
and keeps the state wrapped. -/
theorem pushWrite_lives_wrapped (q : bytesQueue) (ce : CacheEntry)
    (l1 l2 : List (Nat × CacheEntry)) (hwf : wfEntry ce)
    (hcapmax : q.maxCapacity = 0 ∨ q.array.length ≤ q.maxCapacity)
    (hhead : q.head ≤ q.array.length) (hrlen : q.right ≤ q.array.length)
    (hchain1 : chain q.array q.head q.right l1) (hl1 : l1 ≠ [])
    (hchain2 : chain q.array 0 q.tail l2)
    (hgap : q.tail + ce.size + 22 ≤ q.head)
    (hcount : q.count = l1.length + l2.length) :
    lives (pushWrite q ce).1 l1 (l2 ++ [(q.tail, ce)]) ∧
      (pushWrite q ce).2 = Except.ok q.tail := by
  have h22 := size_ge_22 ce
  have hnlt : ¬ q.head < q.tail + ce.size := by omega
  have henc : encodedAt (qrefWrite q.array q.tail ce) q.tail ce :=
    encodedAt_qrefWrite q.array q.tail ce hwf (by omega)
  have hch1 : chain (qrefWrite q.array q.tail ce) q.head q.right l1 :=
    chain_qrefWrite_below q.array q.tail ce q.head q.right l1 (by omega) hchain1
  have hch2 : chain (qrefWrite q.array q.tail ce) 0 q.tail l2 :=
    chain_qrefWrite_above q.array q.tail ce 0 q.tail l2 (Nat.le_refl _) hchain2
  have hch : chain (qrefWrite q.array q.tail ce) 0 (q.tail + ce.size)
      (l2 ++ [(q.tail, ce)]) :=
    chain_append _ _ _ _ _ _ hch2 ⟨rfl, henc, rfl⟩
  constructor
  · show lives
      ⟨q.count + 1, q.maxCapacity, qrefWrite q.array q.tail ce, q.head,
        q.tail + ce.size, if q.head < q.tail + ce.size then q.tail + ce.size else q.right⟩
      l1 (l2 ++ [(q.tail, ce)])
    rw [if_neg hnlt]
    refine ⟨?_, ?_, ?_, ?_, Or.inr ⟨?_, hl1, hch1, hch, ?_⟩⟩
    · show q.right ≤ (qrefWrite q.array q.tail ce).length
      rw [length_qrefWrite]
      exact hrlen
    · show q.tail + ce.size ≤ (qrefWrite q.array q.tail ce).length
      rw [length_qrefWrite]
      omega
    · show q.head ≤ (qrefWrite q.array q.tail ce).length
      rw [length_qrefWrite]
      exact hhead
    · show q.maxCapacity = 0 ∨ (qrefWrite q.array q.tail ce).length ≤ q.maxCapacity
      rw [length_qrefWrite]
      exact hcapmax
    · show q.tail + ce.size + 22 ≤ q.head
      exact hgap
    · show q.count + 1 = l1.length + (l2 ++ [(q.tail, ce)]).length
      simp only [List.length_append, List.length_cons, List.length_nil, hcount]
      omega
  · rfl

theorem leBytes_zero (n : Nat) : leBytes n 0 = List.replicate n 0 := by
  induction n with
  | zero => rfl
  | succ n ih => simp [leBytes, ih, List.replicate_succ]

theorem byteAt_replicate_zero (n i : Nat) : byteAt (List.replicate n 0) i = 0 := by
  unfold byteAt
  rcases Nat.lt_or_ge i n with h | h
  · rw [List.getElem?_eq_getElem (by simpa using h)]
    simp [List.getElem_replicate]
  · rw [List.getElem?_eq_none (by simpa using h)]
    rfl

theorem le_expandCapacityCode (cap minimum maxCap : Nat)
    (h : maxCap = 0 ∨ cap ≤ maxCap) :
    cap ≤ expandCapacityCode cap minimum maxCap := by
  unfold expandCapacityCode
  by_cases hc : 0 < maxCap ∧ maxCap < (if cap < minimum then cap + minimum else cap) * 2
  · rw [if_pos hc]
    omega
  · rw [if_neg hc]
    by_cases hm : cap < minimum
    · rw [if_pos hm]
      omega
    · rw [if_neg hm]
      omega

theorem expandCapacityCode_le_max (cap minimum maxCap : Nat) (h0 : 0 < maxCap)
    (_hc : cap ≤ maxCap) : expandCapacityCode cap minimum maxCap ≤ maxCap := by
  unfold expandCapacityCode
  by_cases hcl : 0 < maxCap ∧ maxCap < (if cap < minimum then cap + minimum else cap) * 2
  · rw [if_pos hcl]
  · rw [if_neg hcl]
    omega

/-- On a failed expansion the queue is untouched. -/
theorem expandQ_some_eq (q : bytesQueue) (minimum : Nat) (q1 : bytesQueue)
    (e : QueueErr) (he : expandQ q minimum = (q1, some e)) : q1 = q := by
  rw [expandQ_eq] at he
  by_cases hc : expandCapacityCode q.array.length minimum q.maxCapacity < minimum ∨
      expandCapacityCode q.array.length minimum q.maxCapacity = 0
  · rw [if_pos hc] at he
    exact (congrArg Prod.fst he).symm
  · rw [if_neg hc] at he
    by_cases hr : q.right ≠ 0
    · rw [if_pos hr] at he
      by_cases hw : q.tail < q.head
      · rw [if_pos hw] at he
        exact Option.noConfusion (congrArg Prod.snd he)
      · rw [if_neg hw] at he
        exact Option.noConfusion (congrArg Prod.snd he)
    · rw [if_neg hr] at he
      exact Option.noConfusion (congrArg Prod.snd he)

/-- The synthetic tombstoned entry a `plug` fabricates over a gap. -/
def plugEntry (gap : Nat) : CacheEntry :=
  ⟨0, 0, [], List.replicate (gap - 22) 0⟩

theorem plugEntry_size (gap : Nat) (h : 22 ≤ gap) : (plugEntry gap).size = gap := by
  simp only [plugEntry, CacheEntry.size, List.length_nil, List.length_replicate]
  omega

theorem encode_plugEntry (gap : Nat) (h : 22 ≤ gap) :
    encode (plugEntry gap) = leBytes 4 gap ++ List.replicate (gap - 4) 0 := by
  unfold encode
  rw [plugEntry_size gap h]
  show leBytes 4 gap ++ leBytes 8 0 ++ leBytes 8 0 ++ leBytes 2 0 ++ [] ++
      List.replicate (gap - 22) 0 = _
  rw [leBytes_zero, leBytes_zero]
  simp only [List.append_assoc, List.nil_append, List.append_nil,
    ← List.replicate_add]
  have harith : 8 + 8 + 2 + (gap - 22) = gap - 4 := by omega
  rw [harith]

/-- The bytes a `plug` writes decode as one tombstoned entry spanning the
plugged gap. -/
theorem encodedAt_qrefPlug (buf : List Nat) (t h : Nat) (hgap : t + 22 ≤ h)
    (hlen : h ≤ buf.length) (h32 : h - t < 2 ^ 32) :
    encodedAt (qrefPlug t h buf) t (plugEntry (h - t)) := by
  have hsz := plugEntry_size (h - t) (by omega)
  refine ⟨⟨by norm_num [plugEntry], by norm_num [plugEntry], by norm_num [plugEntry],
    by rw [hsz]; exact h32⟩, ?_, ?_⟩
  · rw [hsz]
    unfold qrefPlug
    rw [length_writeBytes, length_writeBytes]
    omega
  · rw [hsz, encode_plugEntry (h - t) (by omega)]
    refine eq_of_byteAt_eq _ _ ?_ fun i hi => ?_
    · rw [length_readBytes, List.length_append, length_leBytes,
        List.length_replicate]
      unfold qrefPlug
      rw [length_writeBytes, length_writeBytes]
      omega
    · rw [length_readBytes, length_qrefPlug] at hi
      have hign : i < h - t := by omega
      unfold qrefPlug
      rw [byteAt_readBytes _ _ _ _ hign]
      rcases Nat.lt_or_ge i 4 with hi4 | hi4
      · rw [byteAt_writeBytes_of_lt _ _ _ _ (by omega), byteAt_writeBytes,
          if_pos ⟨by omega, by rw [length_leBytes]; omega, by omega⟩,
          byteAt_append_left _ _ _ (by rw [length_leBytes]; omega)]
        congr 1
        omega
      · rw [byteAt_writeBytes,
          if_pos ⟨by omega, by rw [List.length_replicate]; omega,
            by rw [length_writeBytes]; omega⟩,
          byteAt_append_right _ _ _ (by rw [length_leBytes]; omega)]
        rw [byteAt_replicate_zero, length_leBytes, byteAt_replicate_zero]

theorem byteAt_copyArr (buf : List Nat) (capF r i : Nat) (hrlen : r ≤ buf.length)
    (hir : i < r) (hicap : i < capF) :
    byteAt (writeBytes (List.replicate capF 0) 0 (readBytes buf 0 r)) i = byteAt buf i := by
  rw [byteAt_writeBytes,
    if_pos ⟨Nat.zero_le _, by rw [length_readBytes]; omega,
      by rw [List.length_replicate]; omega⟩]
  rw [show i - 0 = i from rfl, byteAt_readBytes _ _ _ _ hir, Nat.zero_add]

theorem chain_copyArr (buf : List Nat) (capF r a b : Nat)
    (l : List (Nat × CacheEntry)) (hrlen : r ≤ buf.length) (hbr : b ≤ r)
    (hcap : buf.length ≤ capF) (h : chain buf a b l) :
    chain (writeBytes (List.replicate capF 0) 0 (readBytes buf 0 r)) a b l :=
  chain_congr buf _ l a b
    (by rw [length_writeBytes, List.length_replicate]; exact hcap)
    (fun i _ h2 => (byteAt_copyArr buf capF r i hrlen (by omega) (by omega)).symm) h

/-- A successful `expand` leaves the queue unwrapped, preserves every live
entry at its offset (inserting the plug entry in the wrapped case), and
allocates exactly the policy capacity. -/
theorem expandQ_ok_lives (q : bytesQueue) (minimum : Nat)
    (l1 l2 : List (Nat × CacheEntry)) (h : lives q l1 l2)
    (hmax0 : 0 < q.maxCapacity) (hmax32 : q.maxCapacity < 2 ^ 32)
    (q1 : bytesQueue) (he : expandQ q minimum = (q1, none)) :
    ∃ l1' : List (Nat × CacheEntry), lives q1 l1' [] ∧
      (∀ p ∈ l1 ++ l2, p ∈ l1') ∧
      q1.maxCapacity = q.maxCapacity ∧ q1.head ≤ q1.tail ∧
      q1.tail ≤ q.array.length ∧
      q1.array.length = expandCapacityCode q.array.length minimum q.maxCapacity := by
  have hcapmax : q.array.length ≤ q.maxCapacity := by
    rcases h.2.2.2.1 with h0 | h0
    · omega
    · exact h0
  have hlecap := le_expandCapacityCode q.array.length minimum q.maxCapacity (Or.inr hcapmax)
  have hcapmax' := expandCapacityCode_le_max q.array.length minimum q.maxCapacity hmax0 hcapmax
  set capF := expandCapacityCode q.array.length minimum q.maxCapacity with hcapF
  rw [expandQ_eq] at he
  rw [← hcapF] at he
  by_cases hc : capF < minimum ∨ capF = 0
  · rw [if_pos hc] at he
    exact Option.noConfusion (congrArg Prod.snd he)
  · rw [if_neg hc] at he
    by_cases hr : q.right ≠ 0
    · rw [if_pos hr] at he
      by_cases hw : q.tail < q.head
      · -- wrapped: copy, plug the gap, unwrap
        rw [if_pos hw] at he
        injection he with hq1 hsnd
        rcases h.2.2.2.2 with hu | hwv
        · exact absurd hu.1 (by omega)
        obtain ⟨hgap, hl1ne, hch1, hch2, hcnt⟩ := hwv
        have hhr : q.head ≤ q.right := chain_le q.array l1 q.head q.right hch1
        have hhl : q.head ≤ q.array.length := h.2.2.1
        have hrl : q.right ≤ q.array.length := h.1
        have h32 : q.head - q.tail < 2 ^ 32 := by omega
        have hthead : q.head ≤ capF := by omega
        -- the copied-then-plugged array
        have hplug := encodedAt_qrefPlug
          (writeBytes (List.replicate capF 0) 0 (readBytes q.array 0 q.right))
          q.tail q.head (by omega)
          (by rw [length_writeBytes, List.length_replicate]; omega) h32
        have harrlen : (qrefPlug q.tail q.head
            (writeBytes (List.replicate capF 0) 0 (readBytes q.array 0 q.right))).length
            = capF := by
          rw [length_qrefPlug, length_writeBytes, List.length_replicate]
        -- low chain l2 survives copy and plug
        have hch2' : chain (qrefPlug q.tail q.head
            (writeBytes (List.replicate capF 0) 0 (readBytes q.array 0 q.right)))
            0 q.tail l2 := by
          refine chain_congr q.array _ l2 0 q.tail (by omega) (fun i _ h2 => ?_) hch2
          unfold qrefPlug
          rw [byteAt_writeBytes_of_lt _ _ _ _ (by omega),
            byteAt_writeBytes_of_lt _ _ _ _ (by omega),
            byteAt_copyArr q.array capF q.right i hrl (by omega) (by omega)]
        -- high chain l1 survives copy and plug
        have hch1' : chain (qrefPlug q.tail q.head
            (writeBytes (List.replicate capF 0) 0 (readBytes q.array 0 q.right)))
            q.head q.right l1 := by
          refine chain_congr q.array _ l1 q.head q.right (by omega) (fun i h1 _ => ?_) hch1
          unfold qrefPlug
          rw [byteAt_writeBytes_of_ge _ _ _ _ (by rw [List.length_replicate]; omega),
            byteAt_writeBytes_of_ge _ _ _ _ (by rw [length_leBytes]; omega),
            byteAt_copyArr q.array capF q.right i hrl (by omega) (by omega)]
        have hsz := plugEntry_size (q.head - q.tail) (by omega)
        have hchall : chain (qrefPlug q.tail q.head
            (writeBytes (List.replicate capF 0) 0 (readBytes q.array 0 q.right)))
            0 q.right (l2 ++ (q.tail, plugEntry (q.head - q.tail)) :: l1) := by
          refine chain_append _ _ _ _ _ _ hch2' ⟨rfl, hplug, ?_⟩
          have : q.tail + (plugEntry (q.head - q.tail)).size = q.head := by
            rw [hsz]
            omega
          rw [this]
          exact hch1'
        refine ⟨l2 ++ (q.tail, plugEntry (q.head - q.tail)) :: l1, ?_, ?_, ?_, ?_, ?_, ?_⟩
        · rw [← hq1]
          refine ⟨?_, ?_, ?_, ?_, Or.inl ⟨?_, ?_, rfl, ?_, ?_, ?_⟩⟩
          · show q.right ≤ _
            rw [harrlen]
            omega
          · show q.right ≤ _
            rw [harrlen]
            omega
          · show (0 : Nat) ≤ _
            omega
          · show q.maxCapacity = 0 ∨ _ ≤ q.maxCapacity
            rw [harrlen]
            omega
          · show (0 : Nat) ≤ q.right
            omega
          · show q.right = q.right
            rfl
          · exact hchall
          · show q.count + 1 = (l2 ++ (q.tail, plugEntry (q.head - q.tail)) :: l1).length
            simp only [List.length_append, List.length_cons, hcnt]
            omega
          · intro _
            rfl
        · intro p hp
          rcases List.mem_append.mp hp with hp | hp
          · exact List.mem_append.mpr (Or.inr (List.mem_cons.mpr (Or.inr hp)))
          · exact List.mem_append.mpr (Or.inl hp)
        · rw [← hq1]
        · rw [← hq1]
          show (0 : Nat) ≤ q.right
          omega
        · rw [← hq1]
          show q.right ≤ q.array.length
          omega
        · rw [← hq1]
          exact harrlen
      · -- unwrapped: plain copy
        rw [if_neg hw] at he
        injection he with hq1 hsnd
        rcases h.2.2.2.2 with hu | hwv
        swap
        · exact absurd hwv.1 (by omega)
        obtain ⟨hht, hrt, hl2, hch, hcnt, hzero⟩ := hu
        have harrlen : (writeBytes (List.replicate capF 0) 0
            (readBytes q.array 0 q.right)).length = capF := by
          rw [length_writeBytes, List.length_replicate]
        have htl : q.tail ≤ q.array.length := h.2.1
        have hch' : chain (writeBytes (List.replicate capF 0) 0
            (readBytes q.array 0 q.right)) q.head q.tail l1 :=
          chain_copyArr q.array capF q.right q.head q.tail l1 h.1 (by omega) (by omega) hch
        refine ⟨l1, ?_, ?_, ?_, ?_, ?_, ?_⟩
        · rw [← hq1]
          refine ⟨?_, ?_, ?_, ?_, Or.inl ⟨hht, hrt, rfl, hch', hcnt, hzero⟩⟩
          · show q.right ≤ _
            rw [harrlen]
            omega
          · show q.tail ≤ _
            rw [harrlen]
            omega
          · show q.head ≤ _
            rw [harrlen]
            omega
          · show q.maxCapacity = 0 ∨ _ ≤ q.maxCapacity
            rw [harrlen]
            omega
        · intro p hp
          rw [hl2, List.append_nil] at hp
          exact hp
        · rw [← hq1]
        · rw [← hq1]
          exact hht
        · rw [← hq1]
          exact htl
        · rw [← hq1]
          exact harrlen
    · -- right = 0: the queue is empty, fresh allocation only
      rw [if_neg hr] at he
      injection he with hq1 hsnd
      have hr0 : q.right = 0 := by
        by_contra hx
        exact hr hx
      rcases h.2.2.2.2 with hu | hwv
      swap
      · exfalso
        have := chain_le q.array l1 q.head q.right hwv.2.2.1
        cases l1 with
        | nil => exact hwv.2.1 rfl
        | cons p l =>
          have := chain_cons_bound q.array p l q.head q.right hwv.2.2.1
          omega
      obtain ⟨hht, hrt, hl2, hch, hcnt, hzero⟩ := hu
      have ht0 : q.tail = 0 := by omega
      have hh0 : q.head = 0 := by omega
      have hl1 : l1 = [] := by
        rw [hh0, ht0] at hch
        exact chain_self q.array 0 l1 hch
      refine ⟨[], ?_, ?_, ?_, ?_, ?_, ?_⟩
      · rw [← hq1]
        refine ⟨?_, ?_, ?_, ?_, Or.inl ⟨hht, hrt, rfl, ?_, ?_, hzero⟩⟩
        · show q.right ≤ (List.replicate capF 0).length
          rw [List.length_replicate]
          omega
        · show q.tail ≤ (List.replicate capF 0).length
          rw [List.length_replicate]
          omega
        · show q.head ≤ (List.replicate capF 0).length
          rw [List.length_replicate]
          omega
        · show q.maxCapacity = 0 ∨ (List.replicate capF 0).length ≤ q.maxCapacity
          rw [List.length_replicate]
          omega
        · show chain (List.replicate capF 0) q.head q.tail []
          show q.head = q.tail
          omega
        · show q.count = ([] : List (Nat × CacheEntry)).length
          rw [hcnt, hl1]
      · intro p hp
        rw [hl1, hl2] at hp
        cases hp
      · rw [← hq1]
      · rw [← hq1]
        show q.head ≤ q.tail
        exact hht
      · rw [← hq1]
        show q.tail ≤ q.array.length
        exact h.2.1
      · rw [← hq1]
        show (List.replicate capF 0).length = capF
        exact List.length_replicate capF 0

theorem expandCapacityCode_room (cap minimum maxCap : Nat)
    (hguard : cap + minimum < maxCap) :
    cap + minimum ≤ expandCapacityCode cap minimum maxCap := by
  unfold expandCapacityCode
  by_cases hcl : 0 < maxCap ∧ maxCap < (if cap < minimum then cap + minimum else cap) * 2
  · rw [if_pos hcl]
    omega
  · rw [if_neg hcl]
    by_cases hm : cap < minimum
    · rw [if_pos hm]
      omega
    · rw [if_neg hm]
      omega

/-- A failed `push` leaves the queue untouched. -/
theorem pushQ_err_eq (q : bytesQueue) (ce : CacheEntry) (q' : bytesQueue)
    (e : QueueErr) (hp : pushQ q ce = (q', Except.error e)) : q' = q := by
  unfold pushQ at hp
  by_cases h1 : q.head ≤ q.tail
  · rw [if_pos h1] at hp
    by_cases h2 : (q.array.length : Int) - (q.tail : Int) < (ce.size : Int)
    · rw [if_pos h2] at hp
      by_cases h3 : (ce.size : Int) ≤ (q.head : Int) - 22
      · rw [if_pos h3] at hp
        injection hp with _ hsnd
        exact Except.noConfusion hsnd
      · rw [if_neg h3] at hp
        by_cases h4 : 0 < q.maxCapacity ∧ q.maxCapacity ≤ q.array.length + ce.size
        · rw [if_pos h4] at hp
          injection hp with hfst _
          exact hfst.symm
        · rw [if_neg h4] at hp
          rcases hx : expandQ q ce.size with ⟨q1, res⟩
          cases res with
          | none =>
            rw [hx] at hp
            injection hp with _ hsnd
            exact Except.noConfusion hsnd
          | some e2 =>
            rw [hx] at hp
            injection hp with hfst _
            rw [← hfst]
            exact expandQ_some_eq q ce.size q1 e2 hx
    · rw [if_neg h2] at hp
      injection hp with _ hsnd
      exact Except.noConfusion hsnd
  · rw [if_neg h1] at hp
    by_cases h2 : (q.head : Int) - (q.tail : Int) - 22 < (ce.size : Int)
    · rw [if_pos h2] at hp
      by_cases h4 : 0 < q.maxCapacity ∧ q.maxCapacity ≤ q.array.length + ce.size
      · rw [if_pos h4] at hp
        injection hp with hfst _
        exact hfst.symm
      · rw [if_neg h4] at hp
        rcases hx : expandQ q ce.size with ⟨q1, res⟩
        cases res with
        | none =>
          rw [hx] at hp
          injection hp with _ hsnd
          exact Except.noConfusion hsnd
        | some e2 =>
          rw [hx] at hp
          injection hp with hfst _
          rw [← hfst]
          exact expandQ_some_eq q ce.size q1 e2 hx
    · rw [if_neg h2] at hp
      injection hp with _ hsnd
      exact Except.noConfusion hsnd

/-- The expand-then-write path of `push`. -/
theorem pushQ_expand_path (q : bytesQueue) (ce : CacheEntry)
    (l1 l2 : List (Nat × CacheEntry)) (h : lives q l1 l2) (hwf : wfEntry ce)
    (hmax0 : 0 < q.maxCapacity) (hmax32 : q.maxCapacity < 2 ^ 32)
    (hguard : q.array.length + ce.size < q.maxCapacity)
    (q' : bytesQueue) (r : Nat) (q1 : bytesQueue)
    (hx : expandQ q ce.size = (q1, none))
    (hp : pushWrite q1 ce = (q', Except.ok r)) :
    ∃ l1' l2', lives q' l1' l2' ∧ (r, ce) ∈ l1' ++ l2' ∧
      (∀ p ∈ l1 ++ l2, p ∈ l1' ++ l2') ∧ q'.maxCapacity = q.maxCapacity := by
  obtain ⟨lm, hlives1, hmem1, hmaxeq, hq1unw, hq1tail, hq1len⟩ :=
    expandQ_ok_lives q ce.size l1 l2 h hmax0 hmax32 q1 hx
  have hroom : q1.tail + ce.size ≤ q1.array.length := by
    have := expandCapacityCode_room q.array.length ce.size q.maxCapacity hguard
    omega
  have hu1 : q1.right = q1.tail ∧ chain q1.array q1.head q1.tail lm ∧
      q1.count = lm.length ∧ (q1.head = q1.tail → q1.head = 0) := by
    rcases hlives1.2.2.2.2 with hu1 | hw1
    · exact ⟨hu1.2.1, hu1.2.2.2.1, hu1.2.2.2.2.1, hu1.2.2.2.2.2⟩
    · exact absurd hq1unw (by omega)
  have hfit := pushWrite_lives_fit q1 ce lm hwf hlives1.2.2.2.1 hlives1.2.2.1
    hq1unw hu1.1 hu1.2.1 hu1.2.2.1 hroom
  have hfst : (pushWrite q1 ce).1 = q' := by
    rw [hp]
  have hsnd : (pushWrite q1 ce).2 = Except.ok r := by
    rw [hp]
  have hr : q1.tail = r := by
    have hh := hfit.2.symm.trans hsnd
    injection hh
  subst hr
  refine ⟨lm ++ [(q1.tail, ce)], [], ?_, ?_, ?_, ?_⟩
  · rw [← hfst]
    exact hfit.1
  · simp
  · intro p hp2
    have := hmem1 p hp2
    simp only [List.append_nil, List.mem_append]
    left
    exact this
  · rw [← hfst]
    show q1.maxCapacity = q.maxCapacity
    exact hmaxeq

/-- A successful `push` keeps every live entry (adding a plug on a wrapped
expansion) and records the new entry at the returned offset. -/
theorem pushQ_ok_lives (q : bytesQueue) (ce : CacheEntry)
    (l1 l2 : List (Nat × CacheEntry)) (h : lives q l1 l2) (hwf : wfEntry ce)
    (hmax0 : 0 < q.maxCapacity) (hmax32 : q.maxCapacity < 2 ^ 32)
    (q' : bytesQueue) (r : Nat) (hp : pushQ q ce = (q', Except.ok r)) :
    ∃ l1' l2', lives q' l1' l2' ∧ (r, ce) ∈ l1' ++ l2' ∧
      (∀ p ∈ l1 ++ l2, p ∈ l1' ++ l2') ∧ q'.maxCapacity = q.maxCapacity := by
  have h22 := size_ge_22 ce
  unfold pushQ at hp
  by_cases h1 : q.head ≤ q.tail
  · rw [if_pos h1] at hp
    have hu : q.right = q.tail ∧ l2 = [] ∧ chain q.array q.head q.tail l1 ∧
        q.count = l1.length ∧ (q.head = q.tail → q.head = 0) := by
      rcases h.2.2.2.2 with hu | hw
      · exact ⟨hu.2.1, hu.2.2.1, hu.2.2.2.1, hu.2.2.2.2.1, hu.2.2.2.2.2⟩
      · exact absurd h1 (by omega)
    by_cases h2 : (q.array.length : Int) - (q.tail : Int) < (ce.size : Int)
    · rw [if_pos h2] at hp
      by_cases h3 : (ce.size : Int) ≤ (q.head : Int) - 22
      · -- wrap the tail to 0 and write there
        rw [if_pos h3] at hp
        have hgap : 0 + ce.size + 22 ≤ q.head := by omega
        have hl1ne : l1 ≠ [] := by
          have himp := hu.2.2.2.2
          rcases Nat.lt_or_ge q.head q.tail with hlt | hge
          · exact chain_ne_nil q.array q.head q.tail l1 hu.2.2.1 (by omega)
          · exfalso
            have hht : q.head = q.tail := by omega
            have := himp hht
            omega
        have hwr := pushWrite_lives_wrapped { q with tail := 0 } ce l1 [] hwf
          h.2.2.2.1 h.2.2.1 (show q.right ≤ q.array.length from h.1)
          (show chain q.array q.head q.right l1 from hu.1 ▸ hu.2.2.1) hl1ne
          (show chain q.array 0 0 [] from rfl) hgap
          (by simpa using hu.2.2.2.1)
        have hfst : (pushWrite { q with tail := 0 } ce).1 = q' := by
          rw [hp]
        have hsnd : (pushWrite { q with tail := 0 } ce).2 = Except.ok r := by
          rw [hp]
        have hr : (0 : Nat) = r := by
          have hh := hwr.2.symm.trans hsnd
          injection hh
        subst hr
        refine ⟨l1, [] ++ [(0, ce)], ?_, ?_, ?_, ?_⟩
        · rw [← hfst]
          exact hwr.1
        · simp
        · intro p hp2
          rw [hu.2.1, List.append_nil] at hp2
          simp only [List.nil_append, List.mem_append, List.mem_cons]
          left
          exact hp2
        · rw [← hfst]
          rfl
      · rw [if_neg h3] at hp
        by_cases h4 : 0 < q.maxCapacity ∧ q.maxCapacity ≤ q.array.length + ce.size
        · rw [if_pos h4] at hp
          injection hp with _ hsnd
          exact Except.noConfusion hsnd
        · rw [if_neg h4] at hp
          have hguard : q.array.length + ce.size < q.maxCapacity := by
            rcases Nat.lt_or_ge (q.array.length + ce.size) q.maxCapacity with hg | hg
            · exact hg
            · exact absurd ⟨hmax0, hg⟩ h4
          rcases hx : expandQ q ce.size with ⟨q1, res⟩
          cases res with
          | none =>
            rw [hx] at hp
            exact pushQ_expand_path q ce l1 l2 h hwf hmax0 hmax32 hguard q' r q1 hx hp
          | some e2 =>
            rw [hx] at hp
            injection hp with _ hsnd
            exact Except.noConfusion hsnd
    · -- fits at the tail
      rw [if_neg h2] at hp
      have hroom : q.tail + ce.size ≤ q.array.length := by omega
      have hfit := pushWrite_lives_fit q ce l1 hwf h.2.2.2.1 h.2.2.1 h1 hu.1
        hu.2.2.1 hu.2.2.2.1 hroom
      have hfst : (pushWrite q ce).1 = q' := by
        rw [hp]
      have hsnd : (pushWrite q ce).2 = Except.ok r := by
        rw [hp]
      have hr : q.tail = r := by
        have hh := hfit.2.symm.trans hsnd
        injection hh
      subst hr
      refine ⟨l1 ++ [(q.tail, ce)], [], ?_, ?_, ?_, ?_⟩
      · rw [← hfst]
        exact hfit.1
      · simp
      · intro p hp2
        rw [hu.2.1, List.append_nil] at hp2
        exact List.mem_append.mpr (Or.inl (List.mem_append.mpr (Or.inl hp2)))
      · rw [← hfst]
        rfl
  · rw [if_neg h1] at hp
    have hw : q.tail + 22 ≤ q.head ∧ l1 ≠ [] ∧ chain q.array q.head q.right l1 ∧
        chain q.array 0 q.tail l2 ∧ q.count = l1.length + l2.length := by
      rcases h.2.2.2.2 with hu | hw
      · exact absurd hu.1 h1
      · exact hw
    by_cases h2 : (q.head : Int) - (q.tail : Int) - 22 < (ce.size : Int)
    · rw [if_pos h2] at hp
      by_cases h4 : 0 < q.maxCapacity ∧ q.maxCapacity ≤ q.array.length + ce.size
      · rw [if_pos h4] at hp
        injection hp with _ hsnd
        exact Except.noConfusion hsnd
      · rw [if_neg h4] at hp
        have hguard : q.array.length + ce.size < q.maxCapacity := by
          rcases Nat.lt_or_ge (q.array.length + ce.size) q.maxCapacity with hg | hg
          · exact hg
          · exact absurd ⟨hmax0, hg⟩ h4
        rcases hx : expandQ q ce.size with ⟨q1, res⟩
        cases res with
        | none =>
          rw [hx] at hp
          exact pushQ_expand_path q ce l1 l2 h hwf hmax0 hmax32 hguard q' r q1 hx hp
        | some e2 =>
          rw [hx] at hp
          injection hp with _ hsnd
          exact Except.noConfusion hsnd
    · -- fits between tail and head
      rw [if_neg h2] at hp
      have hgap : q.tail + ce.size + 22 ≤ q.head := by omega
      have hwr := pushWrite_lives_wrapped q ce l1 l2 hwf h.2.2.2.1 h.2.2.1 h.1
        hw.2.2.1 hw.2.1 hw.2.2.2.1 hgap hw.2.2.2.2
      have hfst : (pushWrite q ce).1 = q' := by
        rw [hp]
      have hsnd : (pushWrite q ce).2 = Except.ok r := by
        rw [hp]
      have hr : q.tail = r := by
        have hh := hwr.2.symm.trans hsnd
        injection hh
      subst hr
      refine ⟨l1, l2 ++ [(q.tail, ce)], ?_, ?_, ?_, ?_⟩
      · rw [← hfst]
        exact hwr.1
      · simp
      · intro p hp2
        rcases List.mem_append.mp hp2 with hp2 | hp2
        · exact List.mem_append.mpr (Or.inl hp2)
        · exact List.mem_append.mpr (Or.inr (List.mem_append.mpr (Or.inl hp2)))
      · rw [← hfst]
        rfl

/-- A successful `pop` removes exactly the front live entry and returns its
offset; the remaining entries stay live. -/
theorem popQ_ok_lives (q : bytesQueue) (l1 l2 : List (Nat × CacheEntry))
    (h : lives q l1 l2) (hc : ¬ q.count = 0) :
    ∃ e l1' l2' q', l1 ++ l2 = (q.head, e) :: (l1' ++ l2') ∧
      popQ q = (q', Except.ok q.head) ∧ lives q' l1' l2' ∧
      q'.array = q.array ∧ q'.maxCapacity = q.maxCapacity ∧
      q'.count = q.count - 1 := by
  rcases h.2.2.2.2 with hu | hw
  · -- unwrapped
    obtain ⟨hht, hrt, hl2, hch, hcnt, hzero⟩ := hu
    cases l1 with
    | nil => exact absurd (hcnt.trans rfl) hc
    | cons p t =>
      obtain ⟨r0, e⟩ := p
      have hr0 : r0 = q.head := hch.1
      subst hr0
      have henc : encodedAt q.array q.head e := hch.2.1
      have hcht : chain q.array (q.head + e.size) q.tail t := hch.2.2
      have hvalid := qrefValid_encodedAt _ _ _ henc
      have hsz := qrefSize_encodedAt _ _ _ henc
      have h22 := size_ge_22 e
      cases t with
      | nil =>
        have hend : q.head + e.size = q.tail := hcht
        have hpop : popQ q =
            (⟨q.count - 1, q.maxCapacity, q.array, 0, 0, 0⟩, Except.ok q.head) := by
          unfold popQ
          rw [if_neg hc, if_neg (by simp [hvalid]), hsz, if_pos (by omega),
            if_pos (by omega)]
        refine ⟨e, [], [], _, ?_, hpop, ?_, rfl, rfl, rfl⟩
        · rw [hl2]
          simp
        · refine ⟨Nat.zero_le _, Nat.zero_le _, Nat.zero_le _, h.2.2.2.1,
            Or.inl ⟨Nat.le_refl 0, rfl, rfl, rfl, ?_, fun _ => rfl⟩⟩
          show q.count - 1 = 0
          rw [hcnt]
          rfl
      | cons p2 t2 =>
        have hbound := chain_cons_bound q.array p2 t2 (q.head + e.size) q.tail hcht
        have hpop : popQ q =
            (⟨q.count - 1, q.maxCapacity, q.array, q.head + e.size, q.tail, q.right⟩,
              Except.ok q.head) := by
          unfold popQ
          rw [if_neg hc, if_neg (by simp [hvalid]), hsz, if_neg (by omega)]
        refine ⟨e, p2 :: t2, [], _, ?_, hpop, ?_, rfl, rfl, rfl⟩
        · rw [hl2]
          simp
        · refine ⟨?_, h.2.1, ?_, h.2.2.2.1,
            Or.inl ⟨?_, hrt, rfl, hcht, ?_, ?_⟩⟩
          · show q.right ≤ q.array.length
            exact h.1
          · show q.head + e.size ≤ q.array.length
            have := h.2.1
            omega
          · show q.head + e.size ≤ q.tail
            omega
          · show q.count - 1 = (p2 :: t2).length
            rw [hcnt]
            rfl
          · show q.head + e.size = q.tail → q.head + e.size = 0
            intro hx
            omega
  · -- wrapped
    obtain ⟨hgap, hl1ne, hch1, hch2, hcnt⟩ := hw
    cases l1 with
    | nil => exact absurd rfl hl1ne
    | cons p t =>
      obtain ⟨r0, e⟩ := p
      have hr0 : r0 = q.head := hch1.1
      subst hr0
      have henc : encodedAt q.array q.head e := hch1.2.1
      have hcht : chain q.array (q.head + e.size) q.right t := hch1.2.2
      have hvalid := qrefValid_encodedAt _ _ _ henc
      have hsz := qrefSize_encodedAt _ _ _ henc
      have h22 := size_ge_22 e
      cases t with
      | nil =>
        have hend : q.head + e.size = q.right := hcht
        have hpop : popQ q =
            (⟨q.count - 1, q.maxCapacity, q.array, 0, q.tail, q.tail⟩,
              Except.ok q.head) := by
          unfold popQ
          rw [if_neg hc, if_neg (by simp [hvalid]), hsz, if_pos (by omega),
            if_neg (by omega)]
        refine ⟨e, l2, [], _, ?_, hpop, ?_, rfl, rfl, rfl⟩
        · rw [List.append_nil]
          rfl
        · refine ⟨h.2.1, h.2.1, Nat.zero_le _, h.2.2.2.1,
            Or.inl ⟨Nat.zero_le _, rfl, rfl, hch2, ?_, fun _ => rfl⟩⟩
          show q.count - 1 = l2.length
          rw [hcnt]
          simp only [List.length_cons, List.length_nil]
          omega
      | cons p2 t2 =>
        have hbound := chain_cons_bound q.array p2 t2 (q.head + e.size) q.right hcht
        have hpop : popQ q =
            (⟨q.count - 1, q.maxCapacity, q.array, q.head + e.size, q.tail, q.right⟩,
              Except.ok q.head) := by
          unfold popQ
          rw [if_neg hc, if_neg (by simp [hvalid]), hsz, if_neg (by omega)]
        refine ⟨e, p2 :: t2, l2, _, rfl, hpop, ?_, rfl, rfl, rfl⟩
        refine ⟨h.1, h.2.1, ?_, h.2.2.2.1,
          Or.inr ⟨?_, by simp, hcht, hch2, ?_⟩⟩
        · show q.head + e.size ≤ q.array.length
          have hhr := chain_le q.array t2 _ _ hcht.2.2
          have := h.1
          omega
        · show q.tail + 22 ≤ q.head + e.size
          omega
        · show q.count - 1 = (p2 :: t2).length + l2.length
          rw [hcnt]
          simp only [List.length_cons]
          omega

/-- `pop` on an empty queue fails and leaves the queue untouched. -/
theorem popQ_empty (q : bytesQueue) (hc : q.count = 0) :
    popQ q = (q, Except.error QueueErr.empty) := by
  unfold popQ
  rw [if_pos hc]

/-! ## Operation traces over the queue -/

inductive QOp where
  | pushOp (ce : CacheEntry)
  | popOp
  | expandOp (minimum : Nat)
  | resetOp
deriving DecidableEq, Repr

/-- One queue operation applied to a queue, also accumulating the list of
`qref`s returned by `pop` so far. -/
def applyOp (s : bytesQueue × List Nat) (op : QOp) : bytesQueue × List Nat :=
  match op with
  | QOp.pushOp ce => ((pushQ s.1 ce).1, s.2)
  | QOp.popOp =>
    match popQ s.1 with
    | (q', Except.ok r) => (q', s.2 ++ [r])
    | (q', Except.error _) => (q', s.2)
  | QOp.expandOp n => ((expandQ s.1 n).1, s.2)
  | QOp.resetOp => (resetQ s.1, s.2)

def runOps (s : bytesQueue × List Nat) (ops : List QOp) : bytesQueue × List Nat :=
  ops.foldl applyOp s

def opWF : QOp → Prop
  | QOp.pushOp ce => wfEntry ce
  | _ => True

def opWFDec : (op : QOp) → Decidable (opWF op)
  | QOp.pushOp ce => inferInstanceAs (Decidable (wfEntry ce))
  | QOp.popOp => inferInstanceAs (Decidable True)
  | QOp.expandOp _ => inferInstanceAs (Decidable True)
  | QOp.resetOp => inferInstanceAs (Decidable True)

instance (op : QOp) : Decidable (opWF op) :=
  opWFDec op

/-- Entries pushed along a trace are well formed (Go's types bound the
timestamp, hash and key length; the spec's data model §3 caps keys at
65535 bytes and sizes at `u32`). -/
def opsWF (ops : List QOp) : Prop :=
  ∀ op ∈ ops, opWF op

instance (ops : List QOp) : Decidable (opsWF ops) :=
  List.decidableBAll opWF ops

/-- One step preserves the layout invariant; on a reset-free step every
live entry either stays live or its offset was just popped. -/
theorem applyOp_step (q : bytesQueue) (popped : List Nat) (op : QOp)
    (l1 l2 : List (Nat × CacheEntry)) (h : lives q l1 l2)
    (hop : opWF op) (hmax0 : 0 < q.maxCapacity) (hmax32 : q.maxCapacity < 2 ^ 32)
    (hnr : op ≠ QOp.resetOp) :
    ∃ l1' l2', lives (applyOp (q, popped) op).1 l1' l2' ∧
      (applyOp (q, popped) op).1.maxCapacity = q.maxCapacity ∧
      (∀ x ∈ popped, x ∈ (applyOp (q, popped) op).2) ∧
      (∀ r e, (r, e) ∈ l1 ++ l2 →
        (r, e) ∈ l1' ++ l2' ∨ r ∈ (applyOp (q, popped) op).2) := by
  cases op with
  | pushOp ce =>
    show ∃ l1' l2', lives (pushQ q ce).1 l1' l2' ∧ (pushQ q ce).1.maxCapacity = q.maxCapacity ∧
      (∀ x ∈ popped, x ∈ popped) ∧
      (∀ r e, (r, e) ∈ l1 ++ l2 → (r, e) ∈ l1' ++ l2' ∨ r ∈ popped)
    rcases hp : pushQ q ce with ⟨q', res⟩
    cases res with
    | ok r =>
      obtain ⟨l1', l2', hl, hm, hpres, hmax⟩ :=
        pushQ_ok_lives q ce l1 l2 h hop hmax0 hmax32 q' r hp
      exact ⟨l1', l2', hl, hmax,
        fun x hx => hx, fun r2 e2 hm2 => Or.inl (hpres (r2, e2) hm2)⟩
    | error e =>
      have hq := pushQ_err_eq q ce q' e hp
      subst hq
      exact ⟨l1, l2, h, rfl,
        fun x hx => hx, fun r2 e2 hm2 => Or.inl hm2⟩
  | popOp =>
    by_cases hc : q.count = 0
    · have hp := popQ_empty q hc
      refine ⟨l1, l2, ?_, ?_, ?_, ?_⟩
      · show lives (applyOp (q, popped) QOp.popOp).1 l1 l2
        unfold applyOp
        rw [hp]
        exact h
      · unfold applyOp
        rw [hp]
      · intro x hx
        unfold applyOp
        rw [hp]
        exact hx
      · intro r2 e2 hm2
        left
        exact hm2
    · obtain ⟨e, l1', l2', q', hsplit, hp, hl, _, hmax, _⟩ :=
        popQ_ok_lives q l1 l2 h hc
      refine ⟨l1', l2', ?_, ?_, ?_, ?_⟩
      · show lives (applyOp (q, popped) QOp.popOp).1 l1' l2'
        unfold applyOp
        rw [hp]
        exact hl
      · unfold applyOp
        rw [hp]
        exact hmax
      · intro x hx
        unfold applyOp
        rw [hp]
        exact List.mem_append.mpr (Or.inl hx)
      · intro r2 e2 hm2
        rw [hsplit] at hm2
        rcases List.mem_cons.mp hm2 with hm2 | hm2
        · right
          unfold applyOp
          rw [hp]
          have : r2 = q.head := congrArg Prod.fst hm2
          rw [this]
          exact List.mem_append.mpr (Or.inr (List.mem_cons.mpr (Or.inl rfl)))
        · left
          exact hm2
  | expandOp n =>
    show ∃ l1' l2', lives (expandQ q n).1 l1' l2' ∧
      (expandQ q n).1.maxCapacity = q.maxCapacity ∧
      (∀ x ∈ popped, x ∈ popped) ∧
      (∀ r e, (r, e) ∈ l1 ++ l2 → (r, e) ∈ l1' ++ l2' ∨ r ∈ popped)
    rcases hx : expandQ q n with ⟨q1, res⟩
    cases res with
    | none =>
      obtain ⟨lm, hl, hmem, hmax, _, _, _⟩ :=
        expandQ_ok_lives q n l1 l2 h hmax0 hmax32 q1 hx
      refine ⟨lm, [], hl, hmax, fun x hx2 => hx2, ?_⟩
      intro r2 e2 hm2
      left
      rw [List.append_nil]
      exact hmem (r2, e2) hm2
    | some e =>
      have hq := expandQ_some_eq q n q1 e hx
      subst hq
      exact ⟨l1, l2, h, rfl,
        fun x hx2 => hx2, fun r2 e2 hm2 => Or.inl hm2⟩
  | resetOp => exact absurd rfl hnr

/-- Along any reset-free trace the layout invariant is preserved, the
popped list only grows, and an entry whose offset never gets popped stays
live. -/
theorem runOps_preserves (ops : List QOp) :
    ∀ q popped l1 l2, lives q l1 l2 → 0 < q.maxCapacity → q.maxCapacity < 2 ^ 32 →
      opsWF ops → QOp.resetOp ∉ ops →
      ∃ l1' l2', lives (runOps (q, popped) ops).1 l1' l2' ∧
        (runOps (q, popped) ops).1.maxCapacity = q.maxCapacity ∧
        (∀ x ∈ popped, x ∈ (runOps (q, popped) ops).2) ∧
        (∀ r e, (r, e) ∈ l1 ++ l2 → r ∉ (runOps (q, popped) ops).2 →
          (r, e) ∈ l1' ++ l2') := by
  induction ops with
  | nil =>
    intro q popped l1 l2 h _ _ _ _
    exact ⟨l1, l2, h, rfl, fun x hx => hx, fun r e hm _ => hm⟩
  | cons op ops ih =>
    intro q popped l1 l2 h hmax0 hmax32 hwf hnr
    have hop : opWF op := hwf op (List.mem_cons.mpr (Or.inl rfl))
    have hnro : op ≠ QOp.resetOp := fun hx =>
      hnr (hx ▸ List.mem_cons.mpr (Or.inl rfl))
    obtain ⟨l1m, l2m, hlm, hmaxm, hpopm, hpresm⟩ :=
      applyOp_step q popped op l1 l2 h hop hmax0 hmax32 hnro
    have hrun : runOps (q, popped) (op :: ops) =
        runOps (applyOp (q, popped) op) ops := rfl
    rcases hs : applyOp (q, popped) op with ⟨qm, poppedm⟩
    rw [hs] at hlm hmaxm hpopm hpresm
    have hmaxm2 : qm.maxCapacity = q.maxCapacity := hmaxm
    obtain ⟨l1', l2', hl', hmax', hpop', hpres'⟩ :=
      ih qm poppedm l1m l2m hlm (by rw [hmaxm2]; exact hmax0) (by rw [hmaxm2]; exact hmax32)
        (fun o ho => hwf o (List.mem_cons.mpr (Or.inr ho)))
        (fun hx => hnr (List.mem_cons.mpr (Or.inr hx)))
    rw [hrun, hs]
    refine ⟨l1', l2', hl', by rw [hmax']; exact hmaxm, ?_, ?_⟩
    · intro x hx
      exact hpop' x (hpopm x hx)
    · intro r e hm hnp
      rcases hpresm r e hm with hm2 | hm2
      · exact hpres' r e hm2 hnp
      · exact absurd (hpop' r hm2) hnp

/-- Along any trace (resets allowed) the layout invariant holds. -/
theorem runOps_lives (ops : List QOp) :
    ∀ q popped l1 l2, lives q l1 l2 → 0 < q.maxCapacity → q.maxCapacity < 2 ^ 32 →
      opsWF ops →
      ∃ l1' l2', lives (runOps (q, popped) ops).1 l1' l2' ∧
        (runOps (q, popped) ops).1.maxCapacity = q.maxCapacity := by
  induction ops with
  | nil =>
    intro q popped l1 l2 h _ _ _
    exact ⟨l1, l2, h, rfl⟩
  | cons op ops ih =>
    intro q popped l1 l2 h hmax0 hmax32 hwf
    have hop : opWF op := hwf op (List.mem_cons.mpr (Or.inl rfl))
    have hstep : ∃ l1m l2m, lives (applyOp (q, popped) op).1 l1m l2m ∧
        (applyOp (q, popped) op).1.maxCapacity = q.maxCapacity := by
      by_cases hnr : op = QOp.resetOp
      · subst hnr
        exact ⟨[], [], lives_resetQ q l1 l2 h, rfl⟩
      · obtain ⟨l1m, l2m, hlm, hmaxm, _, _⟩ :=
          applyOp_step q popped op l1 l2 h hop hmax0 hmax32 hnr
        exact ⟨l1m, l2m, hlm, hmaxm⟩
    obtain ⟨l1m, l2m, hlm, hmaxm⟩ := hstep
    rcases hs : applyOp (q, popped) op with ⟨qm, poppedm⟩
    rw [hs] at hlm hmaxm
    have hmaxm2 : qm.maxCapacity = q.maxCapacity := hmaxm
    obtain ⟨l1', l2', hl', hmax'⟩ :=
      ih qm poppedm l1m l2m hlm (by rw [hmaxm2]; exact hmax0) (by rw [hmaxm2]; exact hmax32)
        (fun o ho => hwf o (List.mem_cons.mpr (Or.inr ho)))
    have hrun : runOps (q, popped) (op :: ops) =
        runOps (applyOp (q, popped) op) ops := rfl
    rw [hrun, hs]
    exact ⟨l1', l2', hl', by rw [hmax']; exact hmaxm⟩

/-- Geometric consequences of the layout invariant. -/
theorem lives_geometry (q : bytesQueue) (l1 l2 : List (Nat × CacheEntry))
    (h : lives q l1 l2) :
    (0 < q.count → q.tail ≠ q.head) ∧ (q.tail < q.head → q.tail + 22 ≤ q.head) ∧
      (q.tail = q.head → q.count = 0) := by
  rcases h.2.2.2.2 with hu | hw
  · obtain ⟨hht, _, _, hch, hcnt, hzero⟩ := hu
    refine ⟨?_, by omega, ?_⟩
    · intro hcnt0 hne
      cases l1 with
      | nil =>
        rw [hcnt] at hcnt0
        exact absurd hcnt0 (by simp)
      | cons p t =>
        have := chain_cons_bound q.array p t q.head q.tail hch
        omega
    · intro hte
      cases l1 with
      | nil => rw [hcnt]; rfl
      | cons p t =>
        have := chain_cons_bound q.array p t q.head q.tail hch
        omega
  · obtain ⟨hgap, _, _, _, _⟩ := hw
    exact ⟨fun _ => by omega, fun _ => by omega, fun hx => absurd hx (by omega)⟩

/-- Claim C1: for every entry `ce` pushed into a `bytesQueue` with `push`
returning offset `r`, as long as `r` has not been popped, `get r` returns
an entry equal to `ce` (same timestamp, hash, key and payload), across any
interleaved pushes, pops and expansions; in particular expansion never
invalidates a previously returned qref.  (Hypotheses: the queue has a
positive hard cap below `2^32`, matching `initNewShard`'s construction and
the `u32` size field; pushed entries are well formed per the spec's data
model §3.) -/
theorem push_get_stable (initialCapacity maxCapacity : Nat)
    (ops1 ops2 : List QOp) (ce : CacheEntry)
    (hinit : initialCapacity ≤ maxCapacity) (hmax0 : 0 < maxCapacity)
    (hmax32 : maxCapacity < 2 ^ 32)
    (hwf1 : opsWF ops1) (hwf2 : opsWF ops2) (hwfce : wfEntry ce)
    (hnr2 : QOp.resetOp ∉ ops2)
    (qmid : bytesQueue) (popped1 : List Nat)
    (hrun1 : runOps (newBytesQueue initialCapacity maxCapacity, []) ops1 = (qmid, popped1))
    (q1 : bytesQueue) (r : Nat) (hpush : pushQ qmid ce = (q1, Except.ok r))
    (q2 : bytesQueue) (popped2 : List Nat)
    (hrun2 : runOps (q1, []) ops2 = (q2, popped2)) (hnp : r ∉ popped2) :
    getQ q2 r = some ce := by
  obtain ⟨l1, l2, hl, hmax⟩ := runOps_lives ops1
    (newBytesQueue initialCapacity maxCapacity) [] [] []
    (lives_newBytesQueue _ _ (Or.inr hinit)) hmax0 hmax32 hwf1
  rw [hrun1] at hl hmax
  have hlmid : lives qmid l1 l2 := hl
  have hmaxmid : qmid.maxCapacity = maxCapacity := hmax
  obtain ⟨la, lb, hl1, hmem1, hpres1, hmaxeq1⟩ :=
    pushQ_ok_lives qmid ce l1 l2 hlmid hwfce (by rw [hmaxmid]; exact hmax0)
      (by rw [hmaxmid]; exact hmax32) q1 r hpush
  obtain ⟨l1f, l2f, hlf, _, _, hpresf⟩ := runOps_preserves ops2 q1 [] la lb hl1
    (by rw [hmaxeq1, hmaxmid]; exact hmax0)
    (by rw [hmaxeq1, hmaxmid]; exact hmax32) hwf2 hnr2
  rw [hrun2] at hlf hpresf
  exact getQ_lives q2 l1f l2f hlf r ce (hpresf r ce hmem1 hnp)

/-- Claim C1 witness: push one entry at offset 0 into a fresh capped queue,
push another entry after it, and read offset 0 back. -/
theorem push_get_stable_witness :
    getQ (runOps ((pushQ (newBytesQueue 64 4096) ⟨1, 2, [7], [9]⟩).1, [])
      [QOp.pushOp ⟨3, 4, [5], [6]⟩]).1 0 = some ⟨1, 2, [7], [9]⟩ :=
  push_get_stable 64 4096 [] [QOp.pushOp ⟨3, 4, [5], [6]⟩] ⟨1, 2, [7], [9]⟩
    (by decide) (by decide) (by decide) (by decide) (by decide) (by decide)
    (by decide)
    (newBytesQueue 64 4096) [] rfl
    (pushQ (newBytesQueue 64 4096) ⟨1, 2, [7], [9]⟩).1 0 (by decide)
    (runOps ((pushQ (newBytesQueue 64 4096) ⟨1, 2, [7], [9]⟩).1, [])
      [QOp.pushOp ⟨3, 4, [5], [6]⟩]).1
    (runOps ((pushQ (newBytesQueue 64 4096) ⟨1, 2, [7], [9]⟩).1, [])
      [QOp.pushOp ⟨3, 4, [5], [6]⟩]).2
    rfl (by decide)

/-- Claim C9: in every state reachable from a fresh queue by push, pop,
expand and reset (with a positive hard cap below `2^32` and well-formed
entries), `count > 0` implies `tail ≠ head`; a wrapped state keeps at
least a 22-byte (header-sized) gap between `tail` and `head`; and
`tail = head` only in the empty queue, so the wrapped-state test
`tail < head` never confuses a buffer holding live entries with an empty
one. -/
theorem ring_geometry (initialCapacity maxCapacity : Nat) (ops : List QOp)
    (hinit : initialCapacity ≤ maxCapacity) (hmax0 : 0 < maxCapacity)
    (hmax32 : maxCapacity < 2 ^ 32) (hwf : opsWF ops) :
    (0 < (runOps (newBytesQueue initialCapacity maxCapacity, []) ops).1.count →
      (runOps (newBytesQueue initialCapacity maxCapacity, []) ops).1.tail ≠
        (runOps (newBytesQueue initialCapacity maxCapacity, []) ops).1.head) ∧
    ((runOps (newBytesQueue initialCapacity maxCapacity, []) ops).1.tail <
        (runOps (newBytesQueue initialCapacity maxCapacity, []) ops).1.head →
      (runOps (newBytesQueue initialCapacity maxCapacity, []) ops).1.tail + 22 ≤
        (runOps (newBytesQueue initialCapacity maxCapacity, []) ops).1.head) ∧
    ((runOps (newBytesQueue initialCapacity maxCapacity, []) ops).1.tail =
        (runOps (newBytesQueue initialCapacity maxCapacity, []) ops).1.head →
      (runOps (newBytesQueue initialCapacity maxCapacity, []) ops).1.count = 0) := by
  obtain ⟨l1, l2, hl, _⟩ := runOps_lives ops
    (newBytesQueue initialCapacity maxCapacity) [] [] []
    (lives_newBytesQueue _ _ (Or.inr hinit)) hmax0 hmax32 hwf
  exact lives_geometry _ l1 l2 hl

/-- Claim C9 witness: after one push the queue has `count = 1` and
`tail ≠ head`. -/
theorem ring_geometry_witness :
    (runOps (newBytesQueue 64 4096, []) [QOp.pushOp ⟨1, 2, [7], [9]⟩]).1.tail ≠
      (runOps (newBytesQueue 64 4096, []) [QOp.pushOp ⟨1, 2, [7], [9]⟩]).1.head :=
  (ring_geometry 64 4096 [QOp.pushOp ⟨1, 2, [7], [9]⟩] (by decide) (by decide)
    (by decide) (by decide)).1 (by decide)

/-! ## Shard layer (`shard.go`, `stats.go`)

The shard couples the ring with a `map[uint64]qref` and per-shard
counters.  The mutex, logger and clock carry no data relevant here: the
clock's `epoch()` is passed explicitly as `current`, and the `onRemove`
callback is `nil` (the `Config` default), so the callback blocks of the
source are no-ops. -/

/-- `Stats` (`stats.go`): per-shard counters.  They are `int64` in Go but
are only ever incremented by one, so `Nat` is a faithful model. -/
structure Stats where
  hits : Nat
  misses : Nat
  delHits : Nat
  delMisses : Nat
  collisions : Nat
  evictedExpired : Nat
  evictedNoSpace : Nat
deriving DecidableEq, Repr

def emptyStats : Stats := ⟨0, 0, 0, 0, 0, 0, 0⟩

/-- Errors surfaced by shard operations: `ErrEntryNotFound`, a queue error
passed through unchanged, or a queue error wrapped by the push loop of
`setWithoutLock` as `"new entry is bigger than max shard size: %w"`
(`entryTooBig`).  `fuelOut` is an artefact of the fuel-bounded model of
that loop; it is unreachable for the fuel the model passes, as
`setLoop_oversized` below shows on the oversized path. -/
inductive ShardErr where
  | entryNotFound
  | queue (e : QueueErr)
  | entryTooBig (e : QueueErr)
  | fuelOut
deriving DecidableEq, Repr

/-- Go's `map[uint64]qref` as an association list with unique keys;
`mapLookup m h` models the lookup `m[h]`. -/
def mapLookup : List (Nat × Nat) → Nat → Option Nat
  | [], _ => none
  | p :: m, h => if p.1 = h then some p.2 else mapLookup m h

/-- `delete(m, h)`. -/
def mapErase : List (Nat × Nat) → Nat → List (Nat × Nat)
  | [], _ => []
  | p :: m, h => if p.1 = h then mapErase m h else p :: mapErase m h

/-- The assignment `m[h] = r` (any previous binding of `h` is displaced). -/
def mapInsert (m : List (Nat × Nat)) (h r : Nat) : List (Nat × Nat) :=
  mapErase m h ++ [(h, r)]

/-- `cacheShard` (`shard.go`): the hash map, the ring, the life window
(`uint64(config.LifeWindow.Seconds())`) and the counters. -/
structure cacheShard where
  hashmap : List (Nat × Nat)
  entries : bytesQueue
  lifeWindow : Nat
  stats : Stats
deriving DecidableEq, Repr

/-- `(*cacheShard).hit()`. -/
def shardHit (s : cacheShard) : cacheShard :=
  { s with stats := { s.stats with hits := s.stats.hits + 1 } }

/-- `(*cacheShard).miss()`. -/
def shardMiss (s : cacheShard) : cacheShard :=
  { s with stats := { s.stats with misses := s.stats.misses + 1 } }

/-- `(*cacheShard).delhit()`. -/
def shardDelhit (s : cacheShard) : cacheShard :=
  { s with stats := { s.stats with delHits := s.stats.delHits + 1 } }

/-- `(*cacheShard).delmiss()`. -/
def shardDelmiss (s : cacheShard) : cacheShard :=
  { s with stats := { s.stats with delMisses := s.stats.delMisses + 1 } }

/-- `(*cacheShard).collision()`. -/
def shardCollision (s : cacheShard) : cacheShard :=
  { s with stats := { s.stats with collisions := s.stats.collisions + 1 } }

/-- `(*cacheShard).expired()`. -/
def shardExpired (s : cacheShard) : cacheShard :=
  { s with stats := { s.stats with evictedExpired := s.stats.evictedExpired + 1 } }

/-- `(*cacheShard).nospace()`. -/
def shardNospace (s : cacheShard) : cacheShard :=
  { s with stats := { s.stats with evictedNoSpace := s.stats.evictedNoSpace + 1 } }

/-- Go `uint64` subtraction `a - b`, wrapping modulo `2^64`. -/
def usub64 (a b : Nat) : Nat :=
  (a % 2 ^ 64 + (2 ^ 64 - b % 2 ^ 64)) % 2 ^ 64

/-- `(*cacheShard).getWithoutLock(key, hash, nil)` — the nil-processor
spelling used by `Get` and `GetHashed`: look the hash up, peek the ref,
report a collision when a non-empty key was supplied and the stored key
differs, otherwise count a hit and return a copy of the payload. -/
def getWithoutLock (s : cacheShard) (key : List Nat) (hash : Nat) :
    cacheShard × Except ShardErr (List Nat) :=
  match mapLookup s.hashmap hash with
  | none => (shardMiss s, Except.error ShardErr.entryNotFound)
  | some ref =>
    match peekQ s.entries ref with
    | some e => (shardMiss s, Except.error (ShardErr.queue e))
    | none =>
      if 0 < key.length ∧ collideQ s.entries ref key = true then
        (shardCollision s, Except.error ShardErr.entryNotFound)
      else
        (shardHit s, Except.ok (getDataCopyQ s.entries ref))

/-- The remove reasons `evictOldest` is actually invoked with: `Expired`
and `NoSpace` (the source panics on `Deleted` and `NoReason`, which no
caller passes). -/
inductive EvictReason where
  | expired
  | nospace
deriving DecidableEq, Repr

/-- `(*cacheShard).evictOldest(reason)`: pop the oldest entry; if its
stored hash is zero it was tombstoned and is dropped silently; otherwise
remove its map binding and bump the eviction counter for `reason`
(`onRemove` is nil, so the callback block does nothing). -/
def evictOldest (s : cacheShard) (reason : EvictReason) : cacheShard × Option QueueErr :=
  match popQ s.entries with
  | (q1, Except.error e) => ({ s with entries := q1 }, some e)
  | (q1, Except.ok oldest) =>
    if getHashQ q1 oldest = 0 then ({ s with entries := q1 }, none)
    else
      match reason with
      | EvictReason.expired =>
        (shardExpired { s with entries := q1, hashmap := mapErase s.hashmap (getHashQ q1 oldest) }, none)
      | EvictReason.nospace =>
        (shardNospace { s with entries := q1, hashmap := mapErase s.hashmap (getHashQ q1 oldest) }, none)

/-- Lines 66–70 of `setWithoutLock`: `s.entries.delete(prev)` and, only
when that returned nil, `delete(s.hashmap, hash)`. -/
def tombstonePrev (s : cacheShard) (prev hash : Nat) : cacheShard :=
  match deleteQ s.entries prev with
  | (q1, none) => { s with entries := q1, hashmap := mapErase s.hashmap hash }
  | (q1, some _) => { s with entries := q1 }

/-- The previous-entry step of `setWithoutLock` (lines 66–70): tombstone
the old ref when the map already binds `hash`. -/
def setTombstoned (s : cacheShard) (hash : Nat) : cacheShard :=
  match mapLookup s.hashmap hash with
  | some prev => tombstonePrev s prev hash
  | none => s

/-- The opportunistic eviction step of `setWithoutLock` (lines 72–76):
when the oldest entry has outlived the life window under `uint64`
subtraction, evict it with reason `Expired` (the error is discarded). -/
def setExpiredEvicted (s : cacheShard) (current : Nat) : cacheShard :=
  match oldestQ s.entries with
  | Except.ok oldest =>
    if s.lifeWindow < usub64 current (getTSQ s.entries oldest) then
      (evictOldest s EvictReason.expired).1
    else s
  | Except.error _ => s

/-- The retry loop of `setWithoutLock` (lines 85–93), fuel-bounded: push;
on success bind `hash` to the new ref and stop; on failure evict the
oldest entry with reason `NoSpace` and retry, wrapping an eviction error
as the "new entry is bigger than max shard size" error.  A fuel of
`count + 1` always suffices, because every retry pops one entry and the
pop of an empty queue errors out. -/
def setLoop (ce : CacheEntry) (hash : Nat) : Nat → cacheShard → cacheShard × Except ShardErr Unit
  | 0, s => (s, Except.error ShardErr.fuelOut)
  | fuel + 1, s =>
    match pushQ s.entries ce with
    | (q1, Except.ok ref) =>
      ({ s with entries := q1, hashmap := mapInsert s.hashmap hash ref }, Except.ok ())
    | (q1, Except.error _) =>
      match evictOldest { s with entries := q1 } EvictReason.nospace with
      | (s1, none) => setLoop ce hash fuel s1
      | (s1, some e) => (s1, Except.error (ShardErr.entryTooBig e))

/-- `(*cacheShard).setWithoutLock(key, hash, entry)` with the clock's
`epoch()` passed as `current`: tombstone the previous entry under `hash`,
opportunistically evict an expired oldest entry, then push the new
`CacheEntry{TS: current, Hash: hash, Key: key, Data: entry}` through the
`NoSpace` eviction loop. -/
def setWithoutLock (s : cacheShard) (key : List Nat) (hash : Nat)
    (entry : List Nat) (current : Nat) : cacheShard × Except ShardErr Unit :=
  setLoop ⟨current, hash, key, entry⟩ hash
    ((setExpiredEvicted (setTombstoned s hash) current).entries.count + 1)
    (setExpiredEvicted (setTombstoned s hash) current)

/-- The loop of `(*cacheShard).cleanUp(timestamp)` (lines 103–113),
fuel-bounded: stop when `oldest` errors (empty queue), when the oldest
entry is within the life window under `uint64` subtraction, or when an
eviction errors; otherwise evict with reason `Expired` and continue.  A
fuel of `count + 1` always suffices. -/
def cleanUpLoop (timestamp : Nat) : Nat → cacheShard → cacheShard
  | 0, s => s
  | fuel + 1, s =>
    match oldestQ s.entries with
    | Except.error _ => s
    | Except.ok oldest =>
      if usub64 timestamp (getTSQ s.entries oldest) ≤ s.lifeWindow then s
      else
        match evictOldest s EvictReason.expired with
        | (s1, none) => cleanUpLoop timestamp fuel s1
        | (s1, some _) => s1

/-- `(*cacheShard).cleanUp(timestamp)`. -/
def cleanUp (s : cacheShard) (timestamp : Nat) : cacheShard :=
  cleanUpLoop timestamp (s.entries.count + 1) s

/-- `(*cacheShard).del(hash)`: look the hash up (miss: `DelMisses++`),
tombstone the ref (failure: `DelMisses++` and the queue error), then drop
the binding and count a `DelHit` (`onRemove` is nil). -/
def shardDel (s : cacheShard) (hash : Nat) : cacheShard × Except ShardErr Unit :=
  match mapLookup s.hashmap hash with
  | none => (shardDelmiss s, Except.error ShardErr.entryNotFound)
  | some ref =>
    match deleteQ s.entries ref with
    | (q1, some e) => (shardDelmiss { s with entries := q1 }, Except.error (ShardErr.queue e))
    | (q1, none) =>
      (shardDelhit { s with entries := q1, hashmap := mapErase s.hashmap hash }, Except.ok ())

/-- The shard-map/ring correspondence (the shard invariant of spec §3):
every binding points at a live entry whose stored hash is the bound,
nonzero hash. -/
def shardCorr (m : List (Nat × Nat)) (l : List (Nat × CacheEntry)) : Prop :=
  ∀ p ∈ m, ∃ q ∈ l, q.1 = p.2 ∧ q.2.hash = p.1 ∧ p.1 ≠ 0

instance shardCorrDec (m : List (Nat × Nat)) (l : List (Nat × CacheEntry)) :
    Decidable (shardCorr m l) := by
  unfold shardCorr
  infer_instance

/-- A one-entry shard used by the witnesses below: hash `5` bound to the
entry at offset `0`. -/
def demoShard : cacheShard :=
  ⟨[(5, 0)], (pushQ (newBytesQueue 64 256) ⟨10, 5, [1], [9]⟩).1, 50, emptyStats⟩

theorem mapErase_cons (p : Nat × Nat) (t : List (Nat × Nat)) (h : Nat) :
    mapErase (p :: t) h = if p.1 = h then mapErase t h else p :: mapErase t h := rfl

theorem mapLookup_cons (p : Nat × Nat) (t : List (Nat × Nat)) (h : Nat) :
    mapLookup (p :: t) h = if p.1 = h then some p.2 else mapLookup t h := rfl

/-- Erasing a key makes its lookup miss. -/
theorem mapLookup_mapErase_self (m : List (Nat × Nat)) (h : Nat) :
    mapLookup (mapErase m h) h = none := by
  induction m with
  | nil => rfl
  | cons p t ih =>
    rw [mapErase_cons]
    by_cases hp : p.1 = h
    · rw [if_pos hp]
      exact ih
    · rw [if_neg hp, mapLookup_cons, if_neg hp]
      exact ih

/-- Membership in the erased map. -/
theorem mem_mapErase (m : List (Nat × Nat)) (h : Nat) (p : Nat × Nat) :
    p ∈ mapErase m h ↔ p ∈ m ∧ p.1 ≠ h := by
  induction m with
  | nil => simp [mapErase]
  | cons q t ih =>
    rw [mapErase_cons]
    by_cases hq : q.1 = h
    · rw [if_pos hq, ih]
      constructor
      · rintro ⟨hm, hne⟩
        exact ⟨List.mem_cons.mpr (Or.inr hm), hne⟩
      · rintro ⟨hm, hne⟩
        rcases List.mem_cons.mp hm with rfl | hm
        · exact absurd hq hne
        · exact ⟨hm, hne⟩
    · rw [if_neg hq]
      constructor
      · intro hm
        rcases List.mem_cons.mp hm with rfl | hm
        · exact ⟨List.mem_cons.mpr (Or.inl rfl), hq⟩
        · exact ⟨List.mem_cons.mpr (Or.inr (ih.mp hm).1), (ih.mp hm).2⟩
      · rintro ⟨hm, hne⟩
        rcases List.mem_cons.mp hm with rfl | hm
        · exact List.mem_cons.mpr (Or.inl rfl)
        · exact List.mem_cons.mpr (Or.inr (ih.mpr ⟨hm, hne⟩))

/-- A successful `read` returns exactly the header fields stored at `r`. -/
theorem qrefRead_fields (buf : List Nat) (r : Nat) (e : CacheEntry)
    (h : qrefRead buf r = some e) :
    qrefTS buf r = e.ts ∧ qrefHash buf r = e.hash := by
  unfold qrefRead at h
  by_cases hv : qrefValid buf r = true
  · rw [if_pos hv] at h
    have he := Option.some.inj h
    rw [← he]
    exact ⟨rfl, rfl⟩
  · rw [if_neg hv] at h
    exact Option.noConfusion h

/-- A successful `oldest` returns `head`, and `peek head` succeeded. -/
theorem oldestQ_ok (q : bytesQueue) (r : Nat) (h : oldestQ q = Except.ok r) :
    r = q.head ∧ peekQ q q.head = none := by
  unfold oldestQ at h
  rcases hp : peekQ q q.head with _ | e
  · rw [hp] at h
    exact ⟨(Except.ok.inj h).symm, rfl⟩
  · rw [hp] at h
    exact Except.noConfusion h

/-- `peek` only succeeds on a non-empty queue. -/
theorem peekQ_none_count (q : bytesQueue) (r : Nat) (h : peekQ q r = none) :
    q.count ≠ 0 := by
  intro hc
  unfold peekQ at h
  rw [if_pos hc] at h
  exact Option.noConfusion h

theorem setLoop_succ (ce : CacheEntry) (hash fuel : Nat) (s : cacheShard) :
    setLoop ce hash (fuel + 1) s =
      match pushQ s.entries ce with
      | (q1, Except.ok ref) =>
        ({ s with entries := q1, hashmap := mapInsert s.hashmap hash ref }, Except.ok ())
      | (q1, Except.error _) =>
        match evictOldest { s with entries := q1 } EvictReason.nospace with
        | (s1, none) => setLoop ce hash fuel s1
        | (s1, some e) => (s1, Except.error (ShardErr.entryTooBig e)) := rfl

theorem cleanUpLoop_succ (timestamp fuel : Nat) (s : cacheShard) :
    cleanUpLoop timestamp (fuel + 1) s =
      match oldestQ s.entries with
      | Except.error _ => s
      | Except.ok oldest =>
        if usub64 timestamp (getTSQ s.entries oldest) ≤ s.lifeWindow then s
        else
          match evictOldest s EvictReason.expired with
          | (s1, none) => cleanUpLoop timestamp fuel s1
          | (s1, some _) => s1 := rfl

/-- `evictOldest` when the pop succeeds. -/
theorem evictOldest_eq (s : cacheShard) (reason : EvictReason) (q1 : bytesQueue)
    (r : Nat) (hp : popQ s.entries = (q1, Except.ok r)) :
    evictOldest s reason =
      if getHashQ q1 r = 0 then ({ s with entries := q1 }, none)
      else
        match reason with
        | EvictReason.expired =>
          (shardExpired { s with entries := q1, hashmap := mapErase s.hashmap (getHashQ q1 r) }, none)
        | EvictReason.nospace =>
          (shardNospace { s with entries := q1, hashmap := mapErase s.hashmap (getHashQ q1 r) }, none) := by
  unfold evictOldest
  rw [hp]

/-- `evictOldest` when the pop fails. -/
theorem evictOldest_err (s : cacheShard) (reason : EvictReason) (q1 : bytesQueue)
    (e : QueueErr) (hp : popQ s.entries = (q1, Except.error e)) :
    evictOldest s reason = ({ s with entries := q1 }, some e) := by
  unfold evictOldest
  rw [hp]

/-- `setTombstoned` is the identity when the hash is unbound. -/
theorem setTombstoned_none (s : cacheShard) (hash : Nat)
    (h : mapLookup s.hashmap hash = none) : setTombstoned s hash = s := by
  unfold setTombstoned
  rw [h]

/-- Zeroing the hash field in place (`qref.clearHash`, used by
`(*bytesQueue).delete`) turns the encoding of `e` into the encoding of
`e` with hash `0`: the write covers exactly bytes `[r+12, r+20)` and the
two encodings agree everywhere else. -/
theorem encodedAt_clearHash (buf : List Nat) (r : Nat) (e : CacheEntry)
    (h : encodedAt buf r e) :
    encodedAt (qrefClearHash buf r) r { e with hash := 0 } := by
  have hlen : (qrefClearHash buf r).length = buf.length := length_writeBytes _ _ _
  have hsz : ({ e with hash := 0 } : CacheEntry).size = e.size := rfl
  refine ⟨⟨h.1.1, (by decide : (0 : Nat) < 2 ^ 64), h.1.2.2.1, h.1.2.2.2⟩, ?_, ?_⟩
  · rw [hlen, hsz]
    exact h.2.1
  · show readBytes (qrefClearHash buf r) r e.size = encode { e with hash := 0 }
    refine eq_of_byteAt_eq _ _ ?_ fun i hi => ?_
    · rw [length_readBytes, length_encode, hlen, hsz]
      have := h.2.1
      omega
    · rw [length_readBytes, hlen] at hi
      have hisz : i < e.size := by omega
      rw [byteAt_readBytes _ _ _ _ hisz]
      unfold qrefClearHash
      rw [byteAt_writeBytes, length_leBytes]
      by_cases hmid : 12 ≤ i ∧ i < 20
      · rw [if_pos (by have := h.2.1; omega)]
        obtain ⟨j, rfl⟩ : ∃ j, i = 12 + j := ⟨i - 12, by omega⟩
        have hj : j < 8 := by omega
        rw [byteAt_encode_hash { e with hash := 0 } j hj]
        show byteAt (leBytes 8 0) (r + (12 + j) - (r + 12)) = byteAt (leBytes 8 0) j
        have hjj : r + (12 + j) - (r + 12) = j := by omega
        rw [hjj]
      · rw [if_neg (by omega), encodedAt_byteAt buf r e h i hisz]
        rcases Nat.lt_or_ge i 4 with h4 | h4
        · rw [byteAt_encode_size e i h4, byteAt_encode_size { e with hash := 0 } i h4]
          rfl
        · rcases Nat.lt_or_ge i 12 with h12 | h12
          · obtain ⟨j, rfl⟩ : ∃ j, i = 4 + j := ⟨i - 4, by omega⟩
            have hj : j < 8 := by omega
            rw [byteAt_encode_ts e j hj, byteAt_encode_ts { e with hash := 0 } j hj]
          · rcases Nat.lt_or_ge i 22 with h22 | h22
            · obtain ⟨j, rfl⟩ : ∃ j, i = 20 + j := ⟨i - 20, by omega⟩
              have hj : j < 2 := by omega
              rw [byteAt_encode_keyLen e j hj, byteAt_encode_keyLen { e with hash := 0 } j hj]
            · obtain ⟨j, rfl⟩ : ∃ j, i = 22 + j := ⟨i - 22, by omega⟩
              rw [byteAt_encode_payload e j, byteAt_encode_payload { e with hash := 0 } j]

/-- The abstract effect of `clearHash` at offset `r` on a list of live
entries: the entry at `r` gets its hash zeroed, all others are kept. -/
def clearAt (r : Nat) (l : List (Nat × CacheEntry)) : List (Nat × CacheEntry) :=
  l.map fun p => if p.1 = r then (p.1, { p.2 with hash := 0 }) else p

theorem clearAt_cons (r : Nat) (p : Nat × CacheEntry) (l : List (Nat × CacheEntry)) :
    clearAt r (p :: l) =
      (if p.1 = r then (p.1, { p.2 with hash := 0 }) else p) :: clearAt r l := rfl

theorem clearAt_append (r : Nat) (l1 l2 : List (Nat × CacheEntry)) :
    clearAt r (l1 ++ l2) = clearAt r l1 ++ clearAt r l2 := by
  simp [clearAt]

theorem length_clearAt (r : Nat) (l : List (Nat × CacheEntry)) :
    (clearAt r l).length = l.length := by
  simp [clearAt]

theorem clearAt_eq_self (r : Nat) (l : List (Nat × CacheEntry))
    (h : ∀ p ∈ l, p.1 ≠ r) : clearAt r l = l := by
  induction l with
  | nil => rfl
  | cons p t ih =>
    rw [clearAt_cons, if_neg (h p (List.mem_cons_self p t)),
      ih fun q hq => h q (List.mem_cons.mpr (Or.inr hq))]

theorem mem_clearAt_of_ne (r : Nat) (l : List (Nat × CacheEntry))
    (p : Nat × CacheEntry) (hm : p ∈ l) (hne : p.1 ≠ r) : p ∈ clearAt r l :=
  List.mem_map.mpr ⟨p, hm, by rw [if_neg hne]⟩

/-- A chain away from the 8 bytes `clearHash` writes is untouched. -/
theorem chain_clearHash_away (buf : List Nat) (r : Nat) (l : List (Nat × CacheEntry))
    (a b : Nat) (h : chain buf a b l) (hdisj : b ≤ r + 12 ∨ r + 20 ≤ a) :
    chain (qrefClearHash buf r) a b l := by
  refine chain_congr buf (qrefClearHash buf r) l a b
    (Nat.le_of_eq (length_writeBytes (leBytes 8 0) buf (r + 12)).symm) ?_ h
  intro i h1 h2
  unfold qrefClearHash
  rw [byteAt_writeBytes, length_leBytes, if_neg (by omega)]

/-- `clearHash` at the offset of one of a chain's entries tombstones that
entry in place and leaves the rest of the chain intact; one non-tombstoned
entry disappears from the hash-bearing count. -/
theorem chain_clearAt (buf : List Nat) (r : Nat) (e0 : CacheEntry)
    (h0 : e0.hash ≠ 0) (l : List (Nat × CacheEntry)) :
    ∀ a b, chain buf a b l → (r, e0) ∈ l →
      chain (qrefClearHash buf r) a b (clearAt r l) ∧
      ((clearAt r l).filter fun p => decide (p.2.hash ≠ 0)).length + 1 =
        (l.filter fun p => decide (p.2.hash ≠ 0)).length := by
  induction l with
  | nil =>
    intro a b _ hm
    cases hm
  | cons p t ih =>
    intro a b h hm
    have hlen : buf.length ≤ (qrefClearHash buf r).length :=
      Nat.le_of_eq (length_writeBytes (leBytes 8 0) buf (r + 12)).symm
    rcases List.mem_cons.mp hm with hm1 | hm1
    · obtain rfl : p = (r, e0) := hm1.symm
      have hra : r = a := h.1
      subst hra
      have htail : ∀ q ∈ t, q.1 ≠ r := by
        intro q hq
        obtain ⟨qr, qe⟩ := q
        have hqb := chain_mem buf t (r + e0.size) b h.2.2 qr qe hq
        have h22 := size_ge_22 e0
        intro hx
        have hqb2 := hqb.2.1
        omega
      rw [clearAt_cons, if_pos rfl, clearAt_eq_self r t htail]
      constructor
      · refine ⟨rfl, encodedAt_clearHash buf r e0 h.2.1, ?_⟩
        show chain (qrefClearHash buf r) (r + e0.size) b t
        refine chain_congr buf (qrefClearHash buf r) t (r + e0.size) b hlen ?_ h.2.2
        intro i h1 h2
        unfold qrefClearHash
        rw [byteAt_writeBytes, length_leBytes,
          if_neg (by have h22 := size_ge_22 e0; omega)]
      · have hf1 : ((r, { e0 with hash := 0 }) :: t).filter
            (fun p => decide (p.2.hash ≠ 0)) = t.filter fun p => decide (p.2.hash ≠ 0) := by
          rw [List.filter_cons, if_neg (by simp)]
        have hf2 : ((r, e0) :: t).filter (fun p => decide (p.2.hash ≠ 0)) =
            (r, e0) :: t.filter fun p => decide (p.2.hash ≠ 0) := by
          rw [List.filter_cons, if_pos (by simp [h0])]
        rw [hf1, hf2, List.length_cons]
    · have hmemt := chain_mem buf t (a + p.2.size) b h.2.2 r e0 hm1
      have hp1 : p.1 = a := h.1
      have h22 := size_ge_22 p.2
      have hmemt2 := hmemt.2.1
      rw [clearAt_cons, if_neg (by intro hx; omega)]
      obtain ⟨hch, hcnt⟩ := ih (a + p.2.size) b h.2.2 hm1
      constructor
      · refine ⟨h.1, ?_, hch⟩
        refine encodedAt_congr buf (qrefClearHash buf r) a p.2 hlen ?_ h.2.1
        intro i h1 h2
        unfold qrefClearHash
        rw [byteAt_writeBytes, length_leBytes, if_neg (by omega)]
      · rw [List.filter_cons, List.filter_cons]
        by_cases hp : decide (p.2.hash ≠ 0) = true
        · rw [if_pos hp, if_pos hp, List.length_cons, List.length_cons]
          omega
        · rw [if_neg hp, if_neg hp]
          exact hcnt

/-- Two live entries at the same offset are the same entry. -/
theorem lives_entry_unique (q : bytesQueue) (l1 l2 : List (Nat × CacheEntry))
    (hl : lives q l1 l2) (r : Nat) (e e' : CacheEntry)
    (h1 : (r, e) ∈ l1 ++ l2) (h2 : (r, e') ∈ l1 ++ l2) : e = e' :=
  Option.some.inj ((getQ_lives q l1 l2 hl r e h1).symm.trans (getQ_lives q l1 l2 hl r e' h2))

/-- A successful map lookup is a member of the association list. -/
theorem mapLookup_mem (m : List (Nat × Nat)) (h r : Nat)
    (hm : mapLookup m h = some r) : (h, r) ∈ m := by
  induction m with
  | nil => exact Option.noConfusion hm
  | cons p t ih =>
    obtain ⟨p1, p2⟩ := p
    rw [mapLookup_cons] at hm
    by_cases hp : p1 = h
    · rw [if_pos hp] at hm
      have h2 : p2 = r := Option.some.inj hm
      subst hp
      subst h2
      exact List.mem_cons_self _ _
    · rw [if_neg hp] at hm
      exact List.mem_cons.mpr (Or.inr (ih hm))

theorem clearAt_nil (r : Nat) : clearAt r [] = [] := rfl

/-- `delete` has exactly `peek`'s guards before its in-place write. -/
theorem deleteQ_of_peek (q : bytesQueue) (r : Nat) (h : peekQ q r = none) :
    deleteQ q r = ({ q with array := qrefClearHash q.array r }, none) := by
  unfold peekQ at h
  unfold deleteQ
  by_cases h1 : q.count = 0
  · rw [if_pos h1] at h
    exact Option.noConfusion h
  · rw [if_neg h1] at h
    rw [if_neg h1]
    by_cases h2 : ¬ qrefValid q.array r = true ∨ q.right < r
    · rw [if_pos h2] at h
      exact Option.noConfusion h
    · rw [if_neg h2]

/-- `(*bytesQueue).delete` of a live non-tombstoned entry succeeds,
tombstones it in place (the layout invariant continues to hold with that
entry's hash zeroed) and lowers the count of hash-bearing live entries by
exactly one. -/
theorem deleteQ_lives (q : bytesQueue) (l1 l2 : List (Nat × CacheEntry))
    (hl : lives q l1 l2) (r : Nat) (e0 : CacheEntry) (hm : (r, e0) ∈ l1 ++ l2)
    (h0 : e0.hash ≠ 0) :
    deleteQ q r = ({ q with array := qrefClearHash q.array r }, none) ∧
    lives { q with array := qrefClearHash q.array r } (clearAt r l1) (clearAt r l2) ∧
    ((clearAt r l1 ++ clearAt r l2).filter fun p => decide (p.2.hash ≠ 0)).length + 1 =
      ((l1 ++ l2).filter fun p => decide (p.2.hash ≠ 0)).length := by
  have hpeek := peekQ_lives q l1 l2 hl r e0 hm
  have hlen : (qrefClearHash q.array r).length = q.array.length :=
    length_writeBytes (leBytes 8 0) q.array (r + 12)
  refine ⟨deleteQ_of_peek q r hpeek, ?_⟩
  have hb1 : q.right ≤ (qrefClearHash q.array r).length := by
    rw [hlen]
    exact hl.1
  have hb2 : q.tail ≤ (qrefClearHash q.array r).length := by
    rw [hlen]
    exact hl.2.1
  have hb3 : q.head ≤ (qrefClearHash q.array r).length := by
    rw [hlen]
    exact hl.2.2.1
  have hb4 : q.maxCapacity = 0 ∨ (qrefClearHash q.array r).length ≤ q.maxCapacity := by
    rw [hlen]
    exact hl.2.2.2.1
  rcases hl.2.2.2.2 with hu | hw
  · -- unwrapped: the single chain holds the entry
    obtain ⟨hht, hrt, hl2, hch, hcnt, hzero⟩ := hu
    subst hl2
    have hm1 : (r, e0) ∈ l1 := by
      rw [List.append_nil] at hm
      exact hm
    obtain ⟨hch', hcnt'⟩ := chain_clearAt q.array r e0 h0 l1 q.head q.tail hch hm1
    constructor
    · exact ⟨hb1, hb2, hb3, hb4, Or.inl ⟨hht, hrt, clearAt_nil r, hch',
        by rw [length_clearAt]; exact hcnt, hzero⟩⟩
    · rw [clearAt_nil, List.append_nil, List.append_nil]
      exact hcnt'
  · -- wrapped: the entry sits in one of the two chains
    obtain ⟨hgap, hne, hch1, hch2, hcnt⟩ := hw
    have hhr1 := chain_le q.array l1 q.head q.right hch1
    rcases List.mem_append.mp hm with hm1 | hm1
    · -- in the upper chain [head, right)
      have hrge : q.head ≤ r := (chain_mem q.array l1 q.head q.right hch1 r e0 hm1).2.1
      obtain ⟨hch1', hcnt1⟩ := chain_clearAt q.array r e0 h0 l1 q.head q.right hch1 hm1
      have hl2same : clearAt r l2 = l2 := by
        refine clearAt_eq_self r l2 fun p hp => ?_
        obtain ⟨pr, pe⟩ := p
        have hpb := (chain_mem q.array l2 0 q.tail hch2 pr pe hp).2.2
        have h22 := size_ge_22 pe
        intro hx
        omega
      have hch2' : chain (qrefClearHash q.array r) 0 q.tail l2 :=
        chain_clearHash_away q.array r l2 0 q.tail hch2 (Or.inl (by omega))
      constructor
      · refine ⟨hb1, hb2, hb3, hb4, Or.inr ⟨hgap, ?_, hch1', by rw [hl2same]; exact hch2', ?_⟩⟩
        · intro hx
          exact hne (List.map_eq_nil_iff.mp hx)
        · rw [length_clearAt, length_clearAt]
          exact hcnt
      · rw [List.filter_append, List.filter_append, List.length_append,
          List.length_append, hl2same]
        omega
    · -- in the lower chain [0, tail)
      have hrlt : r + e0.size ≤ q.tail := (chain_mem q.array l2 0 q.tail hch2 r e0 hm1).2.2
      have h22 := size_ge_22 e0
      obtain ⟨hch2', hcnt2⟩ := chain_clearAt q.array r e0 h0 l2 0 q.tail hch2 hm1
      have hl1same : clearAt r l1 = l1 := by
        refine clearAt_eq_self r l1 fun p hp => ?_
        obtain ⟨pr, pe⟩ := p
        have hpb := (chain_mem q.array l1 q.head q.right hch1 pr pe hp).2.1
        intro hx
        omega
      have hch1' : chain (qrefClearHash q.array r) q.head q.right l1 :=
        chain_clearHash_away q.array r l1 q.head q.right hch1 (Or.inr (by omega))
      constructor
      · refine ⟨hb1, hb2, hb3, hb4, Or.inr ⟨hgap, ?_, by rw [hl1same]; exact hch1', hch2', ?_⟩⟩
        · intro hx
          rw [hl1same] at hx
          exact hne hx
        · rw [length_clearAt, length_clearAt]
          exact hcnt
      · rw [List.filter_append, List.filter_append, List.length_append,
          List.length_append, hl1same]
        omega

/-- On a non-empty queue `evictOldest` succeeds, removes exactly the front
live entry, keeps the layout invariant and, when the shard correspondence
held, keeps it for the remaining entries (the popped entry's binding — if
its hash was nonzero — is erased; a zero stored hash never has a
binding). -/
theorem evictOldest_step (s : cacheShard) (reason : EvictReason)
    (l1 l2 : List (Nat × CacheEntry)) (hl : lives s.entries l1 l2)
    (hc : ¬ s.entries.count = 0) :
    ∃ s1 e l1' l2', evictOldest s reason = (s1, none) ∧
      l1 ++ l2 = (s.entries.head, e) :: (l1' ++ l2') ∧
      lives s1.entries l1' l2' ∧
      s1.entries.count = s.entries.count - 1 ∧
      s1.entries.maxCapacity = s.entries.maxCapacity ∧
      s1.entries.array.length = s.entries.array.length ∧
      s1.lifeWindow = s.lifeWindow ∧
      (shardCorr s.hashmap (l1 ++ l2) → shardCorr s1.hashmap (l1' ++ l2')) ∧
      s.stats.evictedExpired ≤ s1.stats.evictedExpired ∧
      s1.stats.evictedExpired ≤ s.stats.evictedExpired + 1 ∧
      (reason = EvictReason.expired →
        s1.stats.evictedExpired + ((l1' ++ l2').filter fun p => decide (p.2.hash ≠ 0)).length =
          s.stats.evictedExpired + ((l1 ++ l2).filter fun p => decide (p.2.hash ≠ 0)).length ∧
        s1.stats.evictedNoSpace = s.stats.evictedNoSpace) ∧
      (reason = EvictReason.nospace →
        s1.stats.evictedNoSpace + ((l1' ++ l2').filter fun p => decide (p.2.hash ≠ 0)).length =
          s.stats.evictedNoSpace + ((l1 ++ l2).filter fun p => decide (p.2.hash ≠ 0)).length ∧
        s1.stats.evictedExpired = s.stats.evictedExpired) := by
  obtain ⟨e, l1', l2', q', hsplit, hp, hl', harr, hmax, hcnt⟩ :=
    popQ_ok_lives s.entries l1 l2 hl hc
  have hcount0 : e.hash = 0 →
      ((l1' ++ l2').filter fun p => decide (p.2.hash ≠ 0)).length =
        ((l1 ++ l2).filter fun p => decide (p.2.hash ≠ 0)).length := by
    intro hz
    rw [hsplit, List.filter_cons, if_neg (by simp [hz])]
  have hcount1 : e.hash ≠ 0 →
      ((l1' ++ l2').filter fun p => decide (p.2.hash ≠ 0)).length + 1 =
        ((l1 ++ l2).filter fun p => decide (p.2.hash ≠ 0)).length := by
    intro hz
    rw [hsplit, List.filter_cons, if_pos (decide_eq_true hz), List.length_cons]
  have hread : getQ s.entries s.entries.head = some e :=
    getQ_lives s.entries l1 l2 hl s.entries.head e
      (by rw [hsplit]; exact List.mem_cons_self _ _)
  have hhash : qrefHash s.entries.array s.entries.head = e.hash :=
    (qrefRead_fields _ _ _ hread).2
  have hhq : getHashQ q' s.entries.head = e.hash := by
    unfold getHashQ
    rw [harr]
    exact hhash
  have hcorrtail : ∀ m, shardCorr m (l1 ++ l2) →
      shardCorr (mapErase m e.hash) (l1' ++ l2') := by
    intro m hcorr p hpmem
    obtain ⟨hpm, hpne⟩ := (mem_mapErase m e.hash p).mp hpmem
    obtain ⟨qe, hqmem, hq1, hq2, hq3⟩ := hcorr p hpm
    rw [hsplit] at hqmem
    rcases List.mem_cons.mp hqmem with rfl | hqmem
    · exact absurd hq2.symm hpne
    · exact ⟨qe, hqmem, hq1, hq2, hq3⟩
  have hcorr0 : e.hash = 0 → ∀ m, shardCorr m (l1 ++ l2) →
      shardCorr m (l1' ++ l2') := by
    intro h0 m hcorr p hpm
    obtain ⟨qe, hqmem, hq1, hq2, hq3⟩ := hcorr p hpm
    rw [hsplit] at hqmem
    rcases List.mem_cons.mp hqmem with rfl | hqmem
    · rw [h0] at hq2
      exact absurd hq2.symm hq3
    · exact ⟨qe, hqmem, hq1, hq2, hq3⟩
  have hev := evictOldest_eq s reason q' s.entries.head hp
  by_cases h0 : e.hash = 0
  · refine ⟨{ s with entries := q' }, e, l1', l2', ?_, hsplit, hl', hcnt, hmax,
      congrArg List.length harr, rfl, hcorr0 h0 s.hashmap, Nat.le_refl _, Nat.le_succ _,
      fun _ => ⟨?_, rfl⟩, fun _ => ⟨?_, rfl⟩⟩
    · rw [hev, if_pos (by rw [hhq]; exact h0)]
    · show s.stats.evictedExpired + ((l1' ++ l2').filter fun p => decide (p.2.hash ≠ 0)).length =
        s.stats.evictedExpired + ((l1 ++ l2).filter fun p => decide (p.2.hash ≠ 0)).length
      rw [hcount0 h0]
    · show s.stats.evictedNoSpace + ((l1' ++ l2').filter fun p => decide (p.2.hash ≠ 0)).length =
        s.stats.evictedNoSpace + ((l1 ++ l2).filter fun p => decide (p.2.hash ≠ 0)).length
      rw [hcount0 h0]
  · cases reason with
    | expired =>
      refine ⟨shardExpired { s with entries := q', hashmap := mapErase s.hashmap (getHashQ q' s.entries.head) },
        e, l1', l2', ?_, hsplit, hl', hcnt, hmax, congrArg List.length harr, rfl, ?_,
        Nat.le_succ _, Nat.le_refl _, fun _ => ⟨?_, rfl⟩,
        fun hx => EvictReason.noConfusion hx⟩
      · rw [hev, if_neg (by rw [hhq]; exact h0)]
      · rw [hhq]
        exact hcorrtail s.hashmap
      · show s.stats.evictedExpired + 1 +
            ((l1' ++ l2').filter fun p => decide (p.2.hash ≠ 0)).length =
          s.stats.evictedExpired + ((l1 ++ l2).filter fun p => decide (p.2.hash ≠ 0)).length
        have hc1 := hcount1 h0
        omega
    | nospace =>
      refine ⟨shardNospace { s with entries := q', hashmap := mapErase s.hashmap (getHashQ q' s.entries.head) },
        e, l1', l2', ?_, hsplit, hl', hcnt, hmax, congrArg List.length harr, rfl, ?_,
        Nat.le_refl _, Nat.le_succ _, fun hx => EvictReason.noConfusion hx,
        fun _ => ⟨?_, rfl⟩⟩
      · rw [hev, if_neg (by rw [hhq]; exact h0)]
      · rw [hhq]
        exact hcorrtail s.hashmap
      · show s.stats.evictedNoSpace + 1 +
            ((l1' ++ l2').filter fun p => decide (p.2.hash ≠ 0)).length =
          s.stats.evictedNoSpace + ((l1 ++ l2).filter fun p => decide (p.2.hash ≠ 0)).length
        have hc1 := hcount1 h0
        omega

/-- With enough fuel (`count < fuel`), `cleanUpLoop` stops only when the
queue is empty or its oldest entry is within the life window under
`uint64` subtraction; the life window itself never changes. -/
theorem cleanUpLoop_post (timestamp : Nat) : ∀ fuel (s : cacheShard)
    (l1 l2 : List (Nat × CacheEntry)), lives s.entries l1 l2 →
    s.entries.count < fuel →
    (cleanUpLoop timestamp fuel s).lifeWindow = s.lifeWindow ∧
    ∀ r, oldestQ (cleanUpLoop timestamp fuel s).entries = Except.ok r →
      usub64 timestamp (getTSQ (cleanUpLoop timestamp fuel s).entries r) ≤ s.lifeWindow := by
  intro fuel
  induction fuel with
  | zero =>
    intro s l1 l2 _ hcnt
    omega
  | succ fuel ih =>
    intro s l1 l2 hl hcnt
    rcases ho : oldestQ s.entries with e | oldest
    · have hres : cleanUpLoop timestamp (fuel + 1) s = s := by
        rw [cleanUpLoop_succ, ho]
      rw [hres]
      refine ⟨rfl, fun r hr => ?_⟩
      rw [ho] at hr
      exact Except.noConfusion hr
    · obtain ⟨hoh, hpeek⟩ := oldestQ_ok s.entries oldest ho
      by_cases hin : usub64 timestamp (getTSQ s.entries oldest) ≤ s.lifeWindow
      · have hres : cleanUpLoop timestamp (fuel + 1) s = s := by
          rw [cleanUpLoop_succ, ho]
          show (if usub64 timestamp (getTSQ s.entries oldest) ≤ s.lifeWindow then s
            else
              match evictOldest s EvictReason.expired with
              | (s1, none) => cleanUpLoop timestamp fuel s1
              | (s1, some _) => s1) = s
          rw [if_pos hin]
        rw [hres]
        refine ⟨rfl, fun r hr => ?_⟩
        rw [ho] at hr
        have hre : oldest = r := Except.ok.inj hr
        rw [← hre]
        exact hin
      · have hc : ¬ s.entries.count = 0 := peekQ_none_count s.entries s.entries.head hpeek
        obtain ⟨s1, e0, l1', l2', hev, _, hl1, hcnt1, _, _, hlife1, _, _, _, _, _⟩ :=
          evictOldest_step s EvictReason.expired l1 l2 hl hc
        have hres : cleanUpLoop timestamp (fuel + 1) s = cleanUpLoop timestamp fuel s1 := by
          rw [cleanUpLoop_succ, ho]
          show (if usub64 timestamp (getTSQ s.entries oldest) ≤ s.lifeWindow then s
            else
              match evictOldest s EvictReason.expired with
              | (s1, none) => cleanUpLoop timestamp fuel s1
              | (s1, some _) => s1) = cleanUpLoop timestamp fuel s1
          rw [if_neg hin, hev]
        obtain ⟨hlife', hrest⟩ := ih s1 l1' l2' hl1 (by omega)
        rw [hres, hlife', hlife1]
        refine ⟨rfl, fun r hr => ?_⟩
        rw [← hlife1]
        exact hrest r hr

/-- Each push failure evicts one entry, so on a shard whose ring both
satisfies the layout invariant and cannot ever hold the entry (its hard
cap is below the entry's size), the retry loop of `set` evicts the whole
ring one entry at a time, removes every map binding along the way (by the
shard correspondence), and finally fails wrapping the queue-empty error of
the last eviction attempt. -/
theorem setLoop_oversized (ce : CacheEntry) (hash : Nat) : ∀ fuel (s : cacheShard)
    (l1 l2 : List (Nat × CacheEntry)), lives s.entries l1 l2 →
    shardCorr s.hashmap (l1 ++ l2) →
    0 < s.entries.maxCapacity → s.entries.maxCapacity < ce.size →
    s.entries.count < fuel →
    ∃ s', setLoop ce hash fuel s = (s', Except.error (ShardErr.entryTooBig QueueErr.empty)) ∧
      s'.hashmap = [] ∧ s'.entries.count = 0 ∧
      s'.stats.evictedExpired = s.stats.evictedExpired ∧
      s'.stats.evictedNoSpace =
        s.stats.evictedNoSpace + ((l1 ++ l2).filter fun p => decide (p.2.hash ≠ 0)).length := by
  intro fuel
  induction fuel with
  | zero =>
    intro s l1 l2 _ _ _ _ hcnt
    omega
  | succ fuel ih =>
    intro s l1 l2 hl hcorr hm0 hbig hcnt
    have hcap : s.entries.array.length ≤ s.entries.maxCapacity := by
      rcases hl.2.2.2.1 with h | h
      · omega
      · exact h
    have hpush := push_oversized s.entries ce hm0 hcap hl.2.2.1 hbig
    have h1 : setLoop ce hash (fuel + 1) s =
        match evictOldest s EvictReason.nospace with
        | (s1, none) => setLoop ce hash fuel s1
        | (s1, some e) => (s1, Except.error (ShardErr.entryTooBig e)) := by
      rw [setLoop_succ, hpush]
    by_cases hc : s.entries.count = 0
    · have hnil : l1 = [] ∧ l2 = [] := by
        rcases hl.2.2.2.2 with hu | hw
        · have hlen : l1.length = 0 := by omega
          exact ⟨List.length_eq_zero.mp hlen, hu.2.2.1⟩
        · have := hw.2.2.2.2
          have hlen : l1.length = 0 := by omega
          exact absurd (List.length_eq_zero.mp hlen) hw.2.1
      have hmap : s.hashmap = [] := by
        cases hm : s.hashmap with
        | nil => rfl
        | cons p t =>
          obtain ⟨qe, hqmem, _⟩ := hcorr p (by rw [hm]; exact List.mem_cons_self p t)
          rw [hnil.1, hnil.2] at hqmem
          exact absurd hqmem (List.not_mem_nil qe)
      have hpop := popQ_empty s.entries hc
      have hev : evictOldest s EvictReason.nospace = (s, some QueueErr.empty) :=
        evictOldest_err s EvictReason.nospace s.entries QueueErr.empty hpop
      have hF : ((l1 ++ l2).filter fun p => decide (p.2.hash ≠ 0)).length = 0 := by
        rw [hnil.1, hnil.2]
        rfl
      rw [h1, hev]
      exact ⟨s, rfl, hmap, hc, rfl, by omega⟩
    · obtain ⟨s1, e0, l1', l2', hev, _, hl1, hcnt1, hmax1, _, _, hcorr1, _, _, _, hnosp⟩ :=
        evictOldest_step s EvictReason.nospace l1 l2 hl hc
      obtain ⟨hcons, hexpeq⟩ := hnosp rfl
      rw [h1, hev]
      obtain ⟨s', hres, hmap', hcnt', hexp', hnosp'⟩ := ih s1 l1' l2' hl1 (hcorr1 hcorr)
        (by rw [hmax1]; exact hm0) (by rw [hmax1]; exact hbig) (by omega)
      exact ⟨s', hres, hmap', hcnt', by rw [hexp', hexpeq], by omega⟩

/-- The opportunistic expired-eviction step of `set` keeps the layout
invariant, the shard correspondence and the ring's hard cap; it never
touches the `NoSpace` counter, bumps the `Expired` counter at most once,
and does so exactly when a hash-bearing live entry leaves the ring. -/
theorem setExpiredEvicted_inv (s : cacheShard) (current : Nat)
    (l1 l2 : List (Nat × CacheEntry)) (hl : lives s.entries l1 l2)
    (hcorr : shardCorr s.hashmap (l1 ++ l2)) :
    ∃ l1' l2', lives (setExpiredEvicted s current).entries l1' l2' ∧
      shardCorr (setExpiredEvicted s current).hashmap (l1' ++ l2') ∧
      (setExpiredEvicted s current).entries.maxCapacity = s.entries.maxCapacity ∧
      (setExpiredEvicted s current).stats.evictedNoSpace = s.stats.evictedNoSpace ∧
      s.stats.evictedExpired ≤ (setExpiredEvicted s current).stats.evictedExpired ∧
      (setExpiredEvicted s current).stats.evictedExpired ≤ s.stats.evictedExpired + 1 ∧
      (setExpiredEvicted s current).stats.evictedExpired +
          ((l1' ++ l2').filter fun p => decide (p.2.hash ≠ 0)).length =
        s.stats.evictedExpired + ((l1 ++ l2).filter fun p => decide (p.2.hash ≠ 0)).length := by
  rcases ho : oldestQ s.entries with e | oldest
  · have hres : setExpiredEvicted s current = s := by
      unfold setExpiredEvicted
      rw [ho]
    rw [hres]
    exact ⟨l1, l2, hl, hcorr, rfl, rfl, Nat.le_refl _, Nat.le_succ _, rfl⟩
  · obtain ⟨hoh, hpeek⟩ := oldestQ_ok s.entries oldest ho
    by_cases hin : s.lifeWindow < usub64 current (getTSQ s.entries oldest)
    · have hc : ¬ s.entries.count = 0 := peekQ_none_count s.entries s.entries.head hpeek
      obtain ⟨s1, e0, l1', l2', hev, _, hl1, _, hmax1, _, _, hcorr1, hexplb, hexpub, hexpc, _⟩ :=
        evictOldest_step s EvictReason.expired l1 l2 hl hc
      obtain ⟨hcons, hnospeq⟩ := hexpc rfl
      have hres : setExpiredEvicted s current = s1 := by
        unfold setExpiredEvicted
        rw [ho]
        show (if s.lifeWindow < usub64 current (getTSQ s.entries oldest) then
          (evictOldest s EvictReason.expired).1 else s) = s1
        rw [if_pos hin, hev]
      rw [hres]
      exact ⟨l1', l2', hl1, hcorr1 hcorr, hmax1, hnospeq, hexplb, hexpub, hcons⟩
    · have hres : setExpiredEvicted s current = s := by
        unfold setExpiredEvicted
        rw [ho]
        show (if s.lifeWindow < usub64 current (getTSQ s.entries oldest) then
          (evictOldest s EvictReason.expired).1 else s) = s
        rw [if_neg hin]
      rw [hres]
      exact ⟨l1, l2, hl, hcorr, rfl, rfl, Nat.le_refl _, Nat.le_succ _, rfl⟩

/-- Claim C3 counterexample: when the queue-level delete of the previous
ref fails, `set` keeps the map binding — the source removes it only under
`err == nil`.  Here hash `5` is bound to ref `0` of an empty ring, the
tombstoning delete fails with the queue-empty error, the push of the new
entry fails too (it exceeds the 23-byte cap), and the set returns with the
old binding `(5, 0)` still in place, contradicting the spec's "remove the
map binding even if tombstoning failed". -/
theorem set_keeps_binding_on_failed_delete :
    (deleteQ (newBytesQueue 0 23) 0).2 = some QueueErr.empty ∧
    (setWithoutLock ⟨[(5, 0)], newBytesQueue 0 23, 50, emptyStats⟩
      [1] 5 [7, 7, 7, 7, 7, 7, 7, 7, 7, 7] 100).1.hashmap = [(5, 0)] := by
  decide

/-- Claim C3 (amended): the tombstoning step of `set` removes the map
binding exactly when the queue-level delete succeeds; when the delete
fails only the ring receiver is threaded through and the hashmap — the
old binding included — is left unchanged. -/
theorem tombstone_binding (s : cacheShard) (prev hash : Nat) :
    (∀ q1, deleteQ s.entries prev = (q1, none) →
      tombstonePrev s prev hash = { s with entries := q1, hashmap := mapErase s.hashmap hash }) ∧
    (∀ q1 e, deleteQ s.entries prev = (q1, some e) →
      tombstonePrev s prev hash = { s with entries := q1 }) := by
  constructor
  · intro q1 h
    unfold tombstonePrev
    rw [h]
  · intro q1 e h
    unfold tombstonePrev
    rw [h]

/-- Claim C3 witness: on the one-entry shard the delete succeeds and the
binding goes away; on a shard whose ring is empty the delete fails and
the binding survives. -/
theorem tombstone_binding_witness :
    (deleteQ demoShard.entries 0 = ((deleteQ demoShard.entries 0).1, none) ∧
      tombstonePrev demoShard 0 5 = { demoShard with entries := (deleteQ demoShard.entries 0).1, hashmap := mapErase demoShard.hashmap 5 }) ∧
    (deleteQ (newBytesQueue 0 23) 0 = (newBytesQueue 0 23, some QueueErr.empty) ∧
      tombstonePrev ⟨[(5, 0)], newBytesQueue 0 23, 50, emptyStats⟩ 0 5 =
        { (⟨[(5, 0)], newBytesQueue 0 23, 50, emptyStats⟩ : cacheShard) with entries := newBytesQueue 0 23 }) :=
  ⟨⟨by decide, (tombstone_binding demoShard 0 5).1 (deleteQ demoShard.entries 0).1 (by decide)⟩,
    ⟨by decide, (tombstone_binding ⟨[(5, 0)], newBytesQueue 0 23, 50, emptyStats⟩ 0 5).2
      (newBytesQueue 0 23) QueueErr.empty (by decide)⟩⟩

/-- The shard of the claim C5 counterexample: three sets under a
non-monotonic clock (timestamps 100, 100, then 0, with a 50-second life
window) followed by `cleanUp 100`.  The third set evicts the oldest entry
because `0 - 100` underflows `uint64`, then stores its own entry with
timestamp `0` behind the remaining timestamp-100 entry. -/
def c5Shard : cacheShard :=
  cleanUp ((setWithoutLock ((setWithoutLock ((setWithoutLock
    ⟨[], newBytesQueue 200 1000, 50, emptyStats⟩
    [1] 1 [] 100).1) [2] 2 [] 100).1) [3] 3 [] 0).1) 100

set_option maxRecDepth 8000 in
/-- Claim C5 counterexample: after `cleanUp 100` the shard still holds a
resident entry (hash `3`, bound and peekable, returned by `get`) whose
timestamp `0` is older than `now = 100` by `100 > lifeWindow = 50`
seconds.  `cleanUp` stopped at the oldest entry (timestamp 100, inside
the window) and never reached the expired one behind it, which a
non-monotonic clock had stored out of order. -/
theorem cleanup_leaves_expired_entry :
    mapLookup c5Shard.hashmap 3 = some 46 ∧ peekQ c5Shard.entries 46 = none ∧
    (getWithoutLock c5Shard [3] 3).2 = Except.ok [] ∧
    getTSQ c5Shard.entries 46 = 0 ∧
    c5Shard.lifeWindow < 100 - getTSQ c5Shard.entries 46 := by
  decide

/-- Claim C5 (amended): what `cleanUp now` does guarantee — for any shard
whose ring satisfies the layout invariant, after `cleanUp now` returns,
either the queue is empty (`oldest` errors) or the oldest entry is within
the life window under Go's wrapping `uint64` subtraction
`now - ts ≤ lifeWindow`.  Nothing is guaranteed about the entries behind
the oldest one: the loop stops at the first within-window entry, so under
a non-monotonic clock expired entries can survive (see the
counterexample). -/
theorem cleanup_oldest_within_window (s : cacheShard) (now : Nat)
    (l1 l2 : List (Nat × CacheEntry)) (hl : lives s.entries l1 l2) :
    ∀ r, oldestQ (cleanUp s now).entries = Except.ok r →
      usub64 now (getTSQ (cleanUp s now).entries r) ≤ s.lifeWindow :=
  fun r hr =>
    (cleanUpLoop_post now (s.entries.count + 1) s l1 l2 hl (Nat.lt_succ_self _)).2 r hr

/-- Claim C5 witness: a one-entry shard (timestamp 10, window 50) cleaned
up at `now = 20` keeps its oldest entry, which is within the window. -/
theorem cleanup_oldest_within_window_witness :
    lives demoShard.entries [(0, ⟨10, 5, [1], [9]⟩)] [] ∧
    oldestQ (cleanUp demoShard 20).entries = Except.ok 0 ∧
    usub64 20 (getTSQ (cleanUp demoShard 20).entries 0) ≤ demoShard.lifeWindow :=
  ⟨by decide, by decide,
    cleanup_oldest_within_window demoShard 20 [(0, ⟨10, 5, [1], [9]⟩)] [] (by decide)
      0 (by decide)⟩

/-- Claim C7: when the map binds the hash to a peekable ref, a get with a
non-empty key whose bytes differ from the stored key counts a collision —
`Collisions + 1`, `Hits` untouched — and returns `ErrEntryNotFound`
without exposing the colliding entry; the key-less spelling (empty key,
as `GetHashed` passes `""`) skips the collision check and returns the
stored payload with `Hits + 1`. -/
theorem get_collision_counts (s : cacheShard) (key : List Nat) (hash ref : Nat)
    (hmap : mapLookup s.hashmap hash = some ref)
    (hpeek : peekQ s.entries ref = none) :
    (0 < key.length → collideQ s.entries ref key = true →
      getWithoutLock s key hash = (shardCollision s, Except.error ShardErr.entryNotFound) ∧
      (shardCollision s).stats.collisions = s.stats.collisions + 1 ∧
      (shardCollision s).stats.hits = s.stats.hits) ∧
    (getWithoutLock s [] hash = (shardHit s, Except.ok (getDataCopyQ s.entries ref)) ∧
      (shardHit s).stats.hits = s.stats.hits + 1) := by
  have hbody : ∀ k : List Nat, getWithoutLock s k hash =
      if 0 < k.length ∧ collideQ s.entries ref k = true then
        (shardCollision s, Except.error ShardErr.entryNotFound)
      else (shardHit s, Except.ok (getDataCopyQ s.entries ref)) := by
    intro k
    unfold getWithoutLock
    rw [hmap]
    show (match peekQ s.entries ref with
      | some e => (shardMiss s, Except.error (ShardErr.queue e))
      | none =>
        if 0 < k.length ∧ collideQ s.entries ref k = true then
          (shardCollision s, Except.error ShardErr.entryNotFound)
        else (shardHit s, Except.ok (getDataCopyQ s.entries ref))) =
      if 0 < k.length ∧ collideQ s.entries ref k = true then
        (shardCollision s, Except.error ShardErr.entryNotFound)
      else (shardHit s, Except.ok (getDataCopyQ s.entries ref))
    rw [hpeek]
  refine ⟨fun hk hc => ⟨?_, rfl, rfl⟩, ?_, rfl⟩
  · rw [hbody key, if_pos ⟨hk, hc⟩]
  · rw [hbody [], if_neg (fun hx => Nat.lt_irrefl 0 hx.1)]

/-- Claim C7 witness: on the one-entry shard (stored key `[1]`, hash `5`)
a get with key `[2]` collides, and the key-less get returns the payload. -/
theorem get_collision_counts_witness :
    (getWithoutLock demoShard [2] 5 = (shardCollision demoShard, Except.error ShardErr.entryNotFound) ∧
      (shardCollision demoShard).stats.collisions = demoShard.stats.collisions + 1 ∧
      (shardCollision demoShard).stats.hits = demoShard.stats.hits) ∧
    (getWithoutLock demoShard [] 5 = (shardHit demoShard, Except.ok (getDataCopyQ demoShard.entries 0)) ∧
      (shardHit demoShard).stats.hits = demoShard.stats.hits + 1) :=
  ⟨(get_collision_counts demoShard [2] 5 0 (by decide) (by decide)).1 (by decide) (by decide),
    (get_collision_counts demoShard [2] 5 0 (by decide) (by decide)).2⟩

/-- Claim C8: after `del hash` succeeds, the binding is gone, so a get
misses with `ErrEntryNotFound` (whatever key is supplied) and a second
`del hash` returns `ErrEntryNotFound` through the delmiss branch, which
bumps `DelMisses` by one and leaves `DelHits` alone. -/
theorem delete_then_get (s : cacheShard) (hash : Nat) (key : List Nat)
    (s1 : cacheShard) (hdel : shardDel s hash = (s1, Except.ok ())) :
    getWithoutLock s1 key hash = (shardMiss s1, Except.error ShardErr.entryNotFound) ∧
    shardDel s1 hash = (shardDelmiss s1, Except.error ShardErr.entryNotFound) ∧
    (shardDelmiss s1).stats.delMisses = s1.stats.delMisses + 1 ∧
    (shardDelmiss s1).stats.delHits = s1.stats.delHits := by
  have hmapE : s1.hashmap = mapErase s.hashmap hash := by
    unfold shardDel at hdel
    rcases hml : mapLookup s.hashmap hash with _ | ref
    · rw [hml] at hdel
      exact absurd (congrArg Prod.snd hdel) (fun hx => Except.noConfusion hx)
    · rw [hml] at hdel
      have hdel2 : (match deleteQ s.entries ref with
        | (q1, some e) => (shardDelmiss { s with entries := q1 }, Except.error (ShardErr.queue e))
        | (q1, none) => (shardDelhit { s with entries := q1, hashmap := mapErase s.hashmap hash }, Except.ok ())) =
          (s1, Except.ok ()) := hdel
      rcases hdq : deleteQ s.entries ref with ⟨q1, err⟩
      rw [hdq] at hdel2
      cases err with
      | some e =>
        exact absurd (congrArg Prod.snd hdel2) (fun hx => Except.noConfusion hx)
      | none =>
        have h1 : shardDelhit { s with entries := q1, hashmap := mapErase s.hashmap hash } = s1 :=
          congrArg Prod.fst hdel2
        rw [← h1]
        rfl
  have hnone : mapLookup s1.hashmap hash = none := by
    rw [hmapE]
    exact mapLookup_mapErase_self s.hashmap hash
  refine ⟨?_, ?_, rfl, rfl⟩
  · unfold getWithoutLock
    rw [hnone]
  · unfold shardDel
    rw [hnone]

/-- Claim C8 witness: delete the resident hash `5` from the one-entry
shard, then get and delete it again. -/
theorem delete_then_get_witness :
    shardDel demoShard 5 = ((shardDel demoShard 5).1, Except.ok ()) ∧
    getWithoutLock (shardDel demoShard 5).1 [1] 5 =
      (shardMiss (shardDel demoShard 5).1, Except.error ShardErr.entryNotFound) ∧
    shardDel (shardDel demoShard 5).1 5 =
      (shardDelmiss (shardDel demoShard 5).1, Except.error ShardErr.entryNotFound) :=
  ⟨by decide,
    (delete_then_get demoShard 5 [1] (shardDel demoShard 5).1 (by decide)).1,
    (delete_then_get demoShard 5 [1] (shardDel demoShard 5).1 (by decide)).2.1⟩

/-- Tombstoning the entry a binding points at and erasing that binding
keeps the shard correspondence: every other binding's witness sits at a
different offset, so it survives `clearAt` unchanged. -/
theorem shardCorr_tombstone (m : List (Nat × Nat)) (l : List (Nat × CacheEntry))
    (hash r : Nat) (e0 : CacheEntry) (hcorr : shardCorr m l)
    (he0 : e0.hash = hash) (huniq : ∀ e', (r, e') ∈ l → e' = e0) :
    shardCorr (mapErase m hash) (clearAt r l) := by
  intro p hpm
  obtain ⟨hpmem, hpne⟩ := (mem_mapErase m hash p).mp hpm
  obtain ⟨qe, hqmem, hq1, hq2, hq3⟩ := hcorr p hpmem
  obtain ⟨qr, qe2⟩ := qe
  by_cases hqr : qr = r
  · exfalso
    subst hqr
    have he : qe2 = e0 := huniq qe2 hqmem
    rw [he] at hq2
    exact hpne (hq2.symm.trans he0)
  · exact ⟨(qr, qe2), mem_clearAt_of_ne r l (qr, qe2) hqmem hqr, hq1, hq2, hq3⟩

/-- The tombstoning step of `set` never fails on a shard satisfying the
invariants: an unbound hash leaves everything unchanged, and a bound hash
tombstones the bound live entry in place — the layout invariant and the
correspondence continue to hold, the stats, count and hard cap are
untouched, and the number of hash-bearing live entries drops by exactly
one. -/
theorem setTombstoned_inv (s : cacheShard) (hash : Nat)
    (l1 l2 : List (Nat × CacheEntry)) (hl : lives s.entries l1 l2)
    (hcorr : shardCorr s.hashmap (l1 ++ l2)) :
    ∃ l1' l2', lives (setTombstoned s hash).entries l1' l2' ∧
      shardCorr (setTombstoned s hash).hashmap (l1' ++ l2') ∧
      (setTombstoned s hash).entries.maxCapacity = s.entries.maxCapacity ∧
      (setTombstoned s hash).stats = s.stats ∧
      (mapLookup s.hashmap hash = none →
        ((l1' ++ l2').filter fun p => decide (p.2.hash ≠ 0)).length =
          ((l1 ++ l2).filter fun p => decide (p.2.hash ≠ 0)).length) ∧
      (∀ prev, mapLookup s.hashmap hash = some prev →
        ((l1' ++ l2').filter fun p => decide (p.2.hash ≠ 0)).length + 1 =
          ((l1 ++ l2).filter fun p => decide (p.2.hash ≠ 0)).length) := by
  rcases hml : mapLookup s.hashmap hash with _ | prev
  · have hres : setTombstoned s hash = s := setTombstoned_none s hash hml
    rw [hres]
    exact ⟨l1, l2, hl, hcorr, rfl, rfl, fun _ => rfl,
      fun prev hp => Option.noConfusion hp⟩
  · have hmem : (hash, prev) ∈ s.hashmap := mapLookup_mem s.hashmap hash prev hml
    obtain ⟨qe, hqmem, hq1, hq2, hq3⟩ := hcorr (hash, prev) hmem
    obtain ⟨qr, e0⟩ := qe
    have he0 : e0.hash ≠ 0 := by
      rw [hq2]
      exact hq3
    obtain ⟨hdel, hlives', hcnt'⟩ := deleteQ_lives s.entries l1 l2 hl qr e0 hqmem he0
    have huniq : ∀ e', (qr, e') ∈ l1 ++ l2 → e' = e0 :=
      fun e' h' => lives_entry_unique s.entries l1 l2 hl qr e' e0 h' hqmem
    have hq1' : qr = prev := hq1
    subst hq1'
    have htp : tombstonePrev s qr hash =
        { s with entries := { s.entries with array := qrefClearHash s.entries.array qr }, hashmap := mapErase s.hashmap hash } := by
      unfold tombstonePrev
      rw [hdel]
    have hres : setTombstoned s hash = tombstonePrev s qr hash := by
      unfold setTombstoned
      rw [hml]
    have hcorr' : shardCorr (mapErase s.hashmap hash) (clearAt qr l1 ++ clearAt qr l2) := by
      rw [← clearAt_append]
      exact shardCorr_tombstone s.hashmap (l1 ++ l2) hash qr e0 hcorr hq2 huniq
    rw [hres, htp]
    exact ⟨clearAt qr l1, clearAt qr l2, hlives', hcorr', rfl, rfl,
      fun hx => Option.noConfusion hx, fun pr hp => hcnt'⟩

/-- Claim C10: when `set` cannot fit its entry even by evicting — the
ring's hard cap is smaller than the serialised size, so every push fails
on the cap branch and the eviction loop runs until `pop` hits the empty
queue — `set` returns the "entry bigger than max shard size" error
wrapping the queue-empty error, whether or not the hash was already
bound, and by then it has evicted every previously resident entry and
removed all their map bindings: the shard ends empty (`hashmap = []`,
`count = 0`), not unchanged.  The evictions are attributed to their
reasons exactly: of the hash-bearing live entries present at the start,
one is tombstoned in place (not evicted) when the set overwrites a bound
hash, at most one is evicted with reason `Expired` by the opportunistic
pre-step, and every remaining one is evicted with reason `NoSpace` — the
two eviction counters together grow by exactly the number of hash-bearing
entries minus the tombstoned one, with `EvictedExpired` gaining at most
one.  (Hypotheses: the ring satisfies the layout invariant and the map
the shard correspondence of spec §3.) -/
theorem oversized_set_empties_shard (s : cacheShard) (key entry : List Nat)
    (hash current : Nat) (l1 l2 : List (Nat × CacheEntry))
    (hl : lives s.entries l1 l2) (hcorr : shardCorr s.hashmap (l1 ++ l2))
    (hmax0 : 0 < s.entries.maxCapacity)
    (hbig : s.entries.maxCapacity < 22 + key.length + entry.length) :
    ∃ s', setWithoutLock s key hash entry current =
        (s', Except.error (ShardErr.entryTooBig QueueErr.empty)) ∧
      s'.hashmap = [] ∧ s'.entries.count = 0 ∧
      s.stats.evictedExpired ≤ s'.stats.evictedExpired ∧
      s'.stats.evictedExpired ≤ s.stats.evictedExpired + 1 ∧
      s.stats.evictedNoSpace ≤ s'.stats.evictedNoSpace ∧
      (mapLookup s.hashmap hash = none →
        s'.stats.evictedNoSpace + s'.stats.evictedExpired =
          s.stats.evictedNoSpace + s.stats.evictedExpired +
            ((l1 ++ l2).filter fun p => decide (p.2.hash ≠ 0)).length) ∧
      (∀ prev, mapLookup s.hashmap hash = some prev →
        s'.stats.evictedNoSpace + s'.stats.evictedExpired + 1 =
          s.stats.evictedNoSpace + s.stats.evictedExpired +
            ((l1 ++ l2).filter fun p => decide (p.2.hash ≠ 0)).length) := by
  obtain ⟨l1t, l2t, hlt, hcorrt, hmaxt, hstatt, himpnone, himpsome⟩ :=
    setTombstoned_inv s hash l1 l2 hl hcorr
  obtain ⟨l1e, l2e, hle, hcorre, hmaxe, hnospe, hexplbe, hexpube, hconse⟩ :=
    setExpiredEvicted_inv (setTombstoned s hash) current l1t l2t hlt hcorrt
  obtain ⟨s', hres, hmap', hcnt', hexp', hnosp'⟩ :=
    setLoop_oversized ⟨current, hash, key, entry⟩ hash
      ((setExpiredEvicted (setTombstoned s hash) current).entries.count + 1)
      (setExpiredEvicted (setTombstoned s hash) current)
      l1e l2e hle hcorre
      (by rw [hmaxe, hmaxt]; exact hmax0)
      (by rw [hmaxe, hmaxt]; exact hbig)
      (Nat.lt_succ_self _)
  have hsw : setWithoutLock s key hash entry current =
      setLoop ⟨current, hash, key, entry⟩ hash
        ((setExpiredEvicted (setTombstoned s hash) current).entries.count + 1)
        (setExpiredEvicted (setTombstoned s hash) current) := rfl
  have hstE : (setTombstoned s hash).stats.evictedExpired = s.stats.evictedExpired := by
    rw [hstatt]
  have hstN : (setTombstoned s hash).stats.evictedNoSpace = s.stats.evictedNoSpace := by
    rw [hstatt]
  refine ⟨s', by rw [hsw]; exact hres, hmap', hcnt', by omega, by omega, by omega, ?_, ?_⟩
  · intro hx
    have hFt := himpnone hx
    omega
  · intro prev hp
    have hFt := himpsome prev hp
    omega

set_option maxRecDepth 8000 in
/-- Claim C10 witness: an oversized set (323 bytes against cap 256) for
hash `5`, which is already bound in the one-entry shard — the overwrite
case: the resident entry is tombstoned, the set fails with the wrapped
queue-empty error, and the hashmap ends empty. -/
theorem oversized_set_empties_shard_witness :
    lives demoShard.entries [(0, ⟨10, 5, [1], [9]⟩)] [] ∧
    shardCorr demoShard.hashmap ([(0, ⟨10, 5, [1], [9]⟩)] ++ []) ∧
    ∃ s', setWithoutLock demoShard [1] 5 (List.replicate 300 7) 100 =
        (s', Except.error (ShardErr.entryTooBig QueueErr.empty)) ∧
      s'.hashmap = [] ∧ s'.entries.count = 0 ∧
      demoShard.stats.evictedExpired ≤ s'.stats.evictedExpired ∧
      s'.stats.evictedExpired ≤ demoShard.stats.evictedExpired + 1 ∧
      demoShard.stats.evictedNoSpace ≤ s'.stats.evictedNoSpace ∧
      (mapLookup demoShard.hashmap 5 = none →
        s'.stats.evictedNoSpace + s'.stats.evictedExpired =
          demoShard.stats.evictedNoSpace + demoShard.stats.evictedExpired +
            ((([(0, ⟨10, 5, [1], [9]⟩)] : List (Nat × CacheEntry)) ++ []).filter
              fun p : Nat × CacheEntry => decide (p.2.hash ≠ 0)).length) ∧
      (∀ prev, mapLookup demoShard.hashmap 5 = some prev →
        s'.stats.evictedNoSpace + s'.stats.evictedExpired + 1 =
          demoShard.stats.evictedNoSpace + demoShard.stats.evictedExpired +
            ((([(0, ⟨10, 5, [1], [9]⟩)] : List (Nat × CacheEntry)) ++ []).filter
              fun p : Nat × CacheEntry => decide (p.2.hash ≠ 0)).length) :=
  ⟨by decide, by decide,
    oversized_set_empties_shard demoShard [1] (List.replicate 300 7) 5 100
      [(0, ⟨10, 5, [1], [9]⟩)] [] (by decide) (by decide) (by decide) (by decide)⟩

end BigCache
